import Mathlib

/-!
Shallow embedding of `src/data_transfer_simulation.py`.

Conventions used throughout:
* A Python `Chunk` is represented by its `present : Bool` bit.  The `id` field
  of a `Chunk` always equals its list position and is never read by the
  program logic, so it is dropped.
* Python lists become Lean `List`s; in-place mutation becomes `List.set`.
* The naive strategy's `%` and `//` are Python's floor-mod and floor-div on
  arbitrary integers, embedded as `Int.fmod`/`Int.fdiv`, with an explicit
  `zeroDivisionError` when the divisor is zero (Python raises there).
* A Python list subscript that could raise `IndexError` on a reachable path
  becomes an explicit error value; subscripts that are in range whenever the
  data-model invariants hold (server ids equal list positions, chunk lists
  have length `NUM_CHUNKS`) are embedded with `List.set`, which is the
  identity out of range.
* The unbounded `while` loop of `run_simulation` runs on explicit fuel
  `(num_servers - 1) * NUM_CHUNKS + 1`; the termination theorems below prove
  that this fuel is never exhausted in the situations the claims describe.
-/

def NUM_CHUNKS : Nat := 16

def DEFAULT_SERVER_COUNT : Nat := 50

structure Server where
  id : Nat
  chunks : List Bool
  is_transmitting : Bool
  transmitting_to : Option Nat
deriving DecidableEq, Repr

structure SimState where
  num_servers : Nat
  current_tick : Nat
  servers : List Server
deriving DecidableEq, Repr

/-- One recorded transfer: within a tick, `source` sends chunk `chunk` to
`target`.  In the Python code a transfer is the triple of mutations at
lines 45/47-48 (naive) or 107/109-110 (smart). -/
structure Transfer where
  source : Nat
  target : Nat
  chunk : Nat
deriving DecidableEq, Repr

inductive SimErr where
  | zeroDivisionError
  | indexError
deriving DecidableEq, Repr

/-- `DataTransferSimulation.__init__`: server 0 has all chunks, others none.
`[Chunk(j, i == 0) for j in range(NUM_CHUNKS)]` becomes a replicated
presence bit, since the chunk id `j` equals the position. -/
def initState (num_servers : Nat) : SimState :=
  { num_servers := num_servers
    current_tick := 0
    servers := (List.range num_servers).map fun i =>
      { id := i
        chunks := List.replicate NUM_CHUNKS (decide (i = 0))
        is_transmitting := false
        transmitting_to := none } }

/-- `DataTransferSimulation.is_complete`. -/
def is_complete (st : SimState) : Bool :=
  st.servers.all fun server => server.chunks.all fun chunk => chunk

/-- `DataTransferSimulation.naive_transfer`, also returning the list of
recorded transfers.  Python raises `ZeroDivisionError` when
`num_servers - 1 = 0` and `IndexError` on an out-of-range subscript; both
are explicit error values here.  A negative `target_server_id` is
impossible (`fmod` plus one is at least one for a nonnegative tick), and a
negative `chunk_id` requires `num_servers = 0`, where `servers[target]`
already fails on the empty list, so `Int.toNat` never truncates a negative
index on a reachable path. -/
def naive_transfer_core (st : SimState) : Except SimErr (SimState × List Transfer) :=
  let d : Int := (st.num_servers : Int) - 1
  if d = 0 then .error .zeroDivisionError
  else
    let target_server_id : Int := Int.fmod (st.current_tick : Int) d + 1
    let chunk_id : Int := Int.fdiv (st.current_tick : Int) d
    if chunk_id < (NUM_CHUNKS : Int) then
      match st.servers[target_server_id.toNat]? with
      | none => .error .indexError
      | some target =>
        if chunk_id.toNat < target.chunks.length then
          let servers1 := st.servers.set target_server_id.toNat
            { target with chunks := target.chunks.set chunk_id.toNat true }
          match servers1[0]? with
          | none => .error .indexError
          | some server0 =>
            let servers2 := servers1.set 0
              { server0 with is_transmitting := true,
                             transmitting_to := some target_server_id.toNat }
            .ok ({ st with servers := servers2 },
                 [⟨0, target_server_id.toNat, chunk_id.toNat⟩])
        else .error .indexError
    else .ok (st, [])

def naive_transfer (st : SimState) : Except SimErr SimState :=
  (naive_transfer_core st).map Prod.fst

/-- The transfers recorded during one naive tick (empty when the strategy
errors or performs no transfer). -/
def naive_transfer_trace (st : SimState) : List Transfer :=
  match naive_transfer_core st with
  | .ok p => p.2
  | .error _ => []

/-- Lines 59-63: does a server hold at least one chunk? -/
def has_chunks (server : Server) : Bool :=
  server.chunks.any fun chunk => chunk

/-- Lines 79-82: how many chunks a server currently holds. -/
def target_chunk_count (server : Server) : Nat :=
  (server.chunks.filter fun chunk => chunk).length

/-- Lines 85-89: does `source` hold a chunk that `target` lacks?
Python's `zip` truncates at the shorter list, as does `List.zip`. -/
def has_needed_chunks (source target : Server) : Bool :=
  (source.chunks.zip target.chunks).any fun p => p.1 && !p.2

/-- Helper for lines 99-103: first index (from `i`) where the source bit is
set and the target bit is not. -/
def find_first_needed : List (Bool × Bool) → Nat → Option Nat
  | [], _ => none
  | p :: rest, i => if p.1 && !p.2 then some i else find_first_needed rest (i + 1)

/-- Lines 99-103: the first chunk index present at `source` and absent at
`target`. -/
def chunk_to_send (source target : Server) : Option Nat :=
  find_first_needed (source.chunks.zip target.chunks) 0

/-- Lines 69-94: the fold computing `best_target`/`least_chunks`.  The
accumulator starts at `(None, NUM_CHUNKS)` and is updated exactly when
`has_needed_chunks and target_chunk_count < least_chunks and not
potential_target.is_transmitting`. -/
def best_target (servers : List Server) (source_server : Server) : Option Server :=
  (servers.foldl
    (fun acc potential_target =>
      if potential_target.id = source_server.id then acc
      else if has_needed_chunks source_server potential_target
              && decide (target_chunk_count potential_target < acc.2)
              && !potential_target.is_transmitting
      then (some potential_target, target_chunk_count potential_target)
      else acc)
    ((none : Option Server), NUM_CHUNKS)).1

/-- `self.servers[sid].chunks[c].present = True`.  In-range whenever server
ids equal positions and `c` comes from `chunk_to_send`. -/
def setServerChunk (servers : List Server) (sid c : Nat) : List Server :=
  match servers[sid]? with
  | none => servers
  | some s => servers.set sid { s with chunks := s.chunks.set c true }

/-- `self.servers[sid].is_transmitting = True; ....transmitting_to = tid`. -/
def markTransmitting (servers : List Server) (sid tid : Nat) : List Server :=
  match servers[sid]? with
  | none => servers
  | some s => servers.set sid { s with is_transmitting := true, transmitting_to := some tid }

/-- Lines 68-110 for a single `source_server` (referenced by its position
`i`, which is how the Python object reference reads the live state):
select the best target, find the chunk to send, apply the mutations in
source order (chunk first, then the transmitting flags), and record the
transfer. -/
def smart_source_step (servers : List Server) (i : Nat) : List Server × Option Transfer :=
  match servers[i]? with
  | none => (servers, none)
  | some source_server =>
    match best_target servers source_server with
    | none => (servers, none)
    | some bt =>
      match chunk_to_send source_server bt with
      | none => (servers, none)
      | some c =>
        (markTransmitting (setServerChunk servers bt.id c) source_server.id bt.id,
         some ⟨source_server.id, bt.id, c⟩)

/-- Lines 56-65: positions of the servers that have data and are not
currently transmitting, in ascending order (the snapshot taken before the
per-source pass). -/
def available_servers (servers : List Server) : List Nat :=
  (List.range servers.length).filter fun i =>
    match servers[i]? with
    | some server => has_chunks server && !server.is_transmitting
    | none => false

/-- Lines 68-110: process each available source in order, threading the
mutated state, collecting recorded transfers. -/
def smart_pass : List Server → List Nat → List Server × List Transfer
  | servers, [] => (servers, [])
  | servers, i :: rest =>
    match smart_source_step servers i with
    | (servers1, tr) =>
      match smart_pass servers1 rest with
      | (servers2, trs) => (servers2, tr.toList ++ trs)

/-- `DataTransferSimulation.smart_transfer`. -/
def smart_transfer (st : SimState) : SimState :=
  { st with servers := (smart_pass st.servers (available_servers st.servers)).1 }

/-- The transfers recorded during one smart tick. -/
def smart_transfer_trace (st : SimState) : List Transfer :=
  (smart_pass st.servers (available_servers st.servers)).2

/-- Lines 123-126: reset every server's transmission flags. -/
def reset_transmission (servers : List Server) : List Server :=
  servers.map fun server => { server with is_transmitting := false, transmitting_to := none }

/-- One iteration of the `while` loop body of `run_simulation`: dispatch on
the algorithm name (anything other than `"naive"` runs the smart
strategy), reset the transmission flags, increment the tick. -/
def sim_step (algorithm : String) (st : SimState) : Except SimErr SimState :=
  match (if algorithm = "naive" then naive_transfer st else .ok (smart_transfer st)) with
  | .error e => .error e
  | .ok st1 => .ok { st1 with servers := reset_transmission st1.servers,
                              current_tick := st1.current_tick + 1 }

/-- The `while not self.is_complete()` loop, on explicit fuel.  `none`
signals fuel exhaustion (an artifact of the embedding; the theorems below
show it does not happen for the runs the claims describe). -/
def run_loop (algorithm : String) : Nat → SimState → Option (Except SimErr Nat)
  | 0, _ => none
  | fuel + 1, st =>
    if is_complete st then some (.ok st.current_tick)
    else
      match sim_step algorithm st with
      | .error e => some (.error e)
      | .ok st1 => run_loop algorithm fuel st1

/-- `DataTransferSimulation(num_servers).run_simulation(algorithm)` from a
freshly constructed simulation. -/
def run_simulation (num_servers : Nat) (algorithm : String) : Option (Except SimErr Nat) :=
  run_loop algorithm ((num_servers - 1) * NUM_CHUNKS + 1) (initState num_servers)

/-! Observation helpers used by the theorems. -/

/-- The presence bit of chunk `c` at the server in position `i`. -/
def getBit (servers : List Server) (i c : Nat) : Bool :=
  match servers[i]? with
  | some s => (s.chunks[c]?).getD false
  | none => false

/-- Total number of absent presence bits. -/
def missing_count (servers : List Server) : Nat :=
  (servers.map fun s => (s.chunks.filter fun chunk => !chunk).length).sum

/-- Number of servers that hold at least one chunk. -/
def nonempty_count (servers : List Server) : Nat :=
  (servers.filter has_chunks).length

/-- Data-model invariant: each server's `id` equals its list position. -/
def idsAligned (servers : List Server) : Bool :=
  (List.range servers.length).all fun i =>
    match servers[i]? with
    | some s => s.id == i
    | none => false

/-- Data-model invariant: every chunk list has length `NUM_CHUNKS`. -/
def chunksSized (servers : List Server) : Bool :=
  servers.all fun s => s.chunks.length == NUM_CHUNKS

/-- Tick-start invariant: no transmission flag is set. -/
def flagsClear (servers : List Server) : Bool :=
  servers.all fun s => !s.is_transmitting

/-- Server 0 holds every chunk (true initially, preserved forever). -/
def serverZeroFull (servers : List Server) : Bool :=
  match servers[0]? with
  | some s => s.chunks.all fun chunk => chunk
  | none => false

/-- The state reached after `t` naive ticks from `initState n` (for
`2 ≤ n`): chunk `c` of server `i ≥ 1` was delivered at tick
`c * (n - 1) + (i - 1)`, so it is present iff that tick is `< t`. -/
def naiveStateAt (n t : Nat) : SimState :=
  { num_servers := n
    current_tick := t
    servers := (List.range n).map fun i =>
      { id := i
        chunks := (List.range NUM_CHUNKS).map fun c =>
          decide (i = 0) || (decide (1 ≤ i) && decide (c * (n - 1) + (i - 1) < t))
        is_transmitting := false
        transmitting_to := none } }

/-! ### Basic facts about the dispatch and degenerate configurations -/

lemma sim_step_not_naive (algorithm : String) (h : algorithm ≠ "naive") (st : SimState) :
    sim_step algorithm st = sim_step "smart" st := by
  unfold sim_step
  rw [if_neg h, if_neg (by decide : ¬(("smart" : String) = "naive"))]

lemma run_loop_not_naive (algorithm : String) (h : algorithm ≠ "naive") :
    ∀ fuel st, run_loop algorithm fuel st = run_loop "smart" fuel st := by
  intro fuel
  induction fuel with
  | zero => intro st; rfl
  | succ fuel ih =>
    intro st
    unfold run_loop
    rw [sim_step_not_naive algorithm h st]
    cases is_complete st with
    | true => simp
    | false =>
      simp only [Bool.false_eq_true, if_false]
      cases sim_step "smart" st with
      | error e => rfl
      | ok st1 => exact ih st1

/-- C9: any algorithm name other than `"naive"` (including names outside
`{naive, smart}`) makes `run_simulation` behave exactly like the smart
strategy; no error is raised on unrecognized names. -/
theorem C9_unknown_algorithm_falls_back_to_smart (algorithm : String)
    (h : algorithm ≠ "naive") (num_servers : Nat) :
    run_simulation num_servers algorithm = run_simulation num_servers "smart" := by
  unfold run_simulation
  exact run_loop_not_naive algorithm h _ _

theorem C9_witness :
    ("gossip" : String) ≠ "naive" ∧
      run_simulation 7 "gossip" = run_simulation 7 "smart" :=
  ⟨by decide, C9_unknown_algorithm_falls_back_to_smart "gossip" (by decide) 7⟩

/-- C10: with `num_servers ≤ 1` (including 0) the initial state is already
complete (server 0 holds everything; an empty collection is vacuously
complete), so `run_simulation` returns 0 for any algorithm name, without
error and without invoking a strategy. -/
theorem C10_degenerate_returns_zero (algorithm : String) (num_servers : Nat)
    (h : num_servers ≤ 1) :
    run_simulation num_servers algorithm = some (Except.ok 0) := by
  rcases Nat.le_one_iff_eq_zero_or_eq_one.mp h with rfl | rfl
  · rfl
  · rfl

theorem C10_witness :
    (1 : Nat) ≤ 1 ∧ run_simulation 1 "smart" = some (Except.ok 0) :=
  ⟨by decide, C10_degenerate_returns_zero "smart" 1 (by decide)⟩

/-- C4 counterexample: with `num_servers = 1` the naive run does **not**
fail fast with a configuration error — neither at construction nor at
first invocation.  It returns 0 normally, because the completion check is
already true and the strategy (with its division by `num_servers - 1`) is
never executed. -/
theorem C4_counterexample :
    run_simulation 1 "naive" = some (Except.ok 0) ∧
      ∀ e : SimErr, run_simulation 1 "naive" ≠ some (Except.error e) := by
  refine ⟨rfl, fun e h => ?_⟩
  rw [show run_simulation 1 "naive" = some (Except.ok 0) from rfl] at h
  injection h with h1
  exact Except.noConfusion h1

/-- C4 amended: with `num_servers < 2`, running the naive strategy raises
no configuration error at all; `run_simulation` returns 0 immediately
because the completion check is already true, so the naive strategy's
division by `num_servers - 1` is never executed. -/
theorem C4_amended_no_error_returns_zero (num_servers : Nat) (h : num_servers ≤ 1) :
    run_simulation num_servers "naive" = some (Except.ok 0) := by
  rcases Nat.le_one_iff_eq_zero_or_eq_one.mp h with rfl | rfl
  · rfl
  · rfl

theorem C4_amended_witness :
    (0 : Nat) ≤ 1 ∧ run_simulation 0 "naive" = some (Except.ok 0) :=
  ⟨by decide, C4_amended_no_error_returns_zero 0 (by decide)⟩

/-- C8: with two servers both strategies take exactly `NUM_CHUNKS = 16`
ticks: server 0 sends one new chunk per tick to server 1. -/
theorem C8_two_servers_both_sixteen :
    run_simulation 2 "smart" = some (Except.ok NUM_CHUNKS) ∧
      run_simulation 2 "naive" = some (Except.ok NUM_CHUNKS) :=
  ⟨rfl, rfl⟩

/-! ### Monotonicity of presence bits -/

lemma getD_set_true_mono (l : List Bool) (c' c : Nat) (h : l[c]?.getD false = true) :
    ((l.set c' true)[c]?).getD false = true := by
  rcases eq_or_ne c' c with rfl | hne
  · by_cases hlt : c' < l.length
    · simp [List.getElem?_set_self hlt]
    · rw [List.set_eq_of_length_le (Nat.le_of_not_lt hlt)]
      exact h
  · rw [List.getElem?_set_ne hne]
    exact h

lemma getBit_setServerChunk_mono (servers : List Server) (sid c' i c : Nat)
    (h : getBit servers i c = true) : getBit (setServerChunk servers sid c') i c = true := by
  unfold setServerChunk
  cases hs : servers[sid]? with
  | none => exact h
  | some s =>
    rcases eq_or_ne sid i with rfl | hne
    · have hlt : sid < servers.length := (List.getElem?_eq_some_iff.mp hs).1
      simp only [getBit, List.getElem?_set_self hlt]
      simp only [getBit, hs] at h
      exact getD_set_true_mono _ _ _ h
    · simp only [getBit, List.getElem?_set_ne hne]
      exact h

lemma getBit_markTransmitting (servers : List Server) (sid tid i c : Nat) :
    getBit (markTransmitting servers sid tid) i c = getBit servers i c := by
  unfold markTransmitting
  cases hs : servers[sid]? with
  | none => rfl
  | some s =>
    rcases eq_or_ne sid i with rfl | hne
    · have hlt : sid < servers.length := (List.getElem?_eq_some_iff.mp hs).1
      simp only [getBit, List.getElem?_set_self hlt, hs]
    · simp only [getBit, List.getElem?_set_ne hne]

lemma getBit_smart_source_step_mono (servers : List Server) (i0 i c : Nat)
    (h : getBit servers i c = true) : getBit (smart_source_step servers i0).1 i c = true := by
  rcases h1 : servers[i0]? with _ | source_server
  · simp only [smart_source_step, h1]
    exact h
  · rcases h2 : best_target servers source_server with _ | bt
    · simp only [smart_source_step, h1, h2]
      exact h
    · rcases h3 : chunk_to_send source_server bt with _ | c'
      · simp only [smart_source_step, h1, h2, h3]
        exact h
      · simp only [smart_source_step, h1, h2, h3]
        rw [getBit_markTransmitting]
        exact getBit_setServerChunk_mono _ _ _ _ _ h

lemma getBit_smart_pass_mono :
    ∀ (avail : List Nat) (servers : List Server) (i c : Nat),
      getBit servers i c = true → getBit (smart_pass servers avail).1 i c = true := by
  intro avail
  induction avail with
  | nil => intro servers i c h; exact h
  | cons i0 rest ih =>
    intro servers i c h
    unfold smart_pass
    have h1 := getBit_smart_source_step_mono servers i0 i c h
    exact ih _ i c h1

lemma getBit_smart_transfer_mono (st : SimState) (i c : Nat)
    (h : getBit st.servers i c = true) : getBit (smart_transfer st).servers i c = true :=
  getBit_smart_pass_mono _ _ i c h

lemma getBit_reset (servers : List Server) (i c : Nat) :
    getBit (reset_transmission servers) i c = getBit servers i c := by
  unfold getBit reset_transmission
  rw [List.getElem?_map]
  cases servers[i]? with
  | none => rfl
  | some s => rfl

lemma naive_core_ok_servers (st : SimState) (st' : SimState) (trs : List Transfer)
    (h : naive_transfer_core st = .ok (st', trs)) :
    (st' = st ∧ trs = []) ∨
      ∃ tgt chunk, st'.servers = markTransmitting (setServerChunk st.servers tgt chunk) 0 tgt ∧
        st'.num_servers = st.num_servers ∧ st'.current_tick = st.current_tick := by
  simp only [naive_transfer_core] at h
  split at h
  · exact absurd h (by simp)
  · split at h
    · split at h
      · exact absurd h (by simp)
      · rename_i target hget
        split at h
        · split at h
          · exact absurd h (by simp)
          · rename_i server0 hget0
            simp only [Except.ok.injEq, Prod.mk.injEq] at h
            refine Or.inr ⟨(Int.fmod (st.current_tick : Int) ((st.num_servers : Int) - 1) + 1).toNat,
              (Int.fdiv (st.current_tick : Int) ((st.num_servers : Int) - 1)).toNat, ?_, ?_, ?_⟩
            · rw [← h.1]
              unfold markTransmitting setServerChunk
              rw [hget, hget0]
            · rw [← h.1]
            · rw [← h.1]
        · exact absurd h (by simp)
    · simp only [Except.ok.injEq, Prod.mk.injEq] at h
      exact Or.inl ⟨h.1.symm, h.2.symm⟩

lemma getBit_naive_mono (st st' : SimState) (i c : Nat)
    (h : naive_transfer st = .ok st') (hb : getBit st.servers i c = true) :
    getBit st'.servers i c = true := by
  unfold naive_transfer at h
  rcases hcore : naive_transfer_core st with e | p
  · rw [hcore] at h
    exact absurd h (by simp [Except.map])
  · rw [hcore] at h
    simp only [Except.map, Except.ok.injEq] at h
    rcases naive_core_ok_servers st p.1 p.2 (by rw [hcore]) with ⟨heq, _⟩ | ⟨tgt, chunk, hs, _, _⟩
    · rw [← h, heq]
      exact hb
    · rw [← h, hs, getBit_markTransmitting]
      exact getBit_setServerChunk_mono _ _ _ _ _ hb

/-- C5: over one loop iteration of `run_simulation` (either strategy,
any algorithm name), a `present` bit that is true stays true: chunks are
only gained, never lost.  Iterating over ticks, this covers a whole run. -/
theorem C5_present_bits_monotone (algorithm : String) (st st' : SimState) (i c : Nat)
    (hstep : sim_step algorithm st = .ok st') (h : getBit st.servers i c = true) :
    getBit st'.servers i c = true := by
  unfold sim_step at hstep
  by_cases halg : algorithm = "naive"
  · rw [if_pos halg] at hstep
    rcases hn : naive_transfer st with e | st1
    · rw [hn] at hstep
      exact absurd hstep (by simp)
    · rw [hn] at hstep
      simp only [Except.ok.injEq] at hstep
      rw [← hstep]
      simp only
      rw [getBit_reset]
      exact getBit_naive_mono st st1 i c hn h
  · rw [if_neg halg] at hstep
    simp only [Except.ok.injEq] at hstep
    rw [← hstep]
    simp only
    rw [getBit_reset]
    exact getBit_smart_transfer_mono st i c h

theorem C5_witness :
    getBit ({ smart_transfer (initState 2) with
              servers := reset_transmission (smart_transfer (initState 2)).servers
              current_tick := (smart_transfer (initState 2)).current_tick + 1 } : SimState).servers 0 3 = true :=
  C5_present_bits_monotone "smart" (initState 2) _ 0 3 rfl (by decide)

/-! ### Per-tick transfer exclusivity -/

lemma length_le_one_nodup {α : Type} (l : List α) (h : l.length ≤ 1) : l.Nodup := by
  match l with
  | [] => exact List.nodup_nil
  | [a] => simp
  | a :: b :: rest => simp at h

lemma naive_core_trs_len (st st' : SimState) (trs : List Transfer)
    (h : naive_transfer_core st = .ok (st', trs)) : trs.length ≤ 1 := by
  simp only [naive_transfer_core] at h
  split at h
  · exact absurd h (by simp)
  · split at h
    · split at h
      · exact absurd h (by simp)
      · split at h
        · split at h
          · exact absurd h (by simp)
          · simp only [Except.ok.injEq, Prod.mk.injEq] at h
            rw [← h.2]
            simp
        · exact absurd h (by simp)
    · simp only [Except.ok.injEq, Prod.mk.injEq] at h
      rw [← h.2]
      simp

lemma naive_trace_len (st : SimState) : (naive_transfer_trace st).length ≤ 1 := by
  unfold naive_transfer_trace
  rcases hcore : naive_transfer_core st with e | ⟨st', trs⟩
  · simp
  · simpa using naive_core_trs_len st st' trs hcore

/-! ### Single-sender exclusivity (C7) -/

/-- Propositional form of `idsAligned`. -/
def IdsProp (servers : List Server) : Prop :=
  ∀ (j : Nat) (s : Server), servers[j]? = some s → s.id = j

lemma idsProp_of_aligned (servers : List Server) (h : idsAligned servers = true) :
    IdsProp servers := by
  intro j s hj
  have hlt : j < servers.length := (List.getElem?_eq_some_iff.mp hj).1
  have := List.all_eq_true.mp h j (List.mem_range.mpr hlt)
  rw [hj] at this
  simpa using this

lemma idsProp_set (servers : List Server) (sid : Nat) (s v : Server)
    (h : IdsProp servers) (hs : servers[sid]? = some s) (hid : v.id = s.id) :
    IdsProp (servers.set sid v) := by
  intro j s' hj
  rcases eq_or_ne sid j with rfl | hne
  · have hlt : sid < servers.length := (List.getElem?_eq_some_iff.mp hs).1
    rw [List.getElem?_set_self hlt] at hj
    injection hj with hj
    rw [← hj, hid]
    exact h sid s hs
  · rw [List.getElem?_set_ne hne] at hj
    exact h j s' hj

lemma idsProp_setServerChunk (servers : List Server) (sid c : Nat)
    (h : IdsProp servers) : IdsProp (setServerChunk servers sid c) := by
  unfold setServerChunk
  rcases hs : servers[sid]? with _ | s
  · exact h
  · exact idsProp_set servers sid s _ h hs rfl

lemma idsProp_markTransmitting (servers : List Server) (sid tid : Nat)
    (h : IdsProp servers) : IdsProp (markTransmitting servers sid tid) := by
  unfold markTransmitting
  rcases hs : servers[sid]? with _ | s
  · exact h
  · exact idsProp_set servers sid s _ h hs rfl

lemma idsProp_smart_source_step (servers : List Server) (i0 : Nat)
    (h : IdsProp servers) : IdsProp (smart_source_step servers i0).1 := by
  rcases h1 : servers[i0]? with _ | source_server
  · simp only [smart_source_step, h1]
    exact h
  · rcases h2 : best_target servers source_server with _ | bt
    · simp only [smart_source_step, h1, h2]
      exact h
    · rcases h3 : chunk_to_send source_server bt with _ | c'
      · simp only [smart_source_step, h1, h2, h3]
        exact h
      · simp only [smart_source_step, h1, h2, h3]
        exact idsProp_markTransmitting _ _ _ (idsProp_setServerChunk _ _ _ h)

lemma smart_source_step_source (servers : List Server) (i0 : Nat)
    (h : IdsProp servers) (servers' : List Server) (tr : Transfer)
    (hstep : smart_source_step servers i0 = (servers', some tr)) : tr.source = i0 := by
  rcases h1 : servers[i0]? with _ | source_server
  · simp only [smart_source_step, h1, Prod.mk.injEq] at hstep
    exact absurd hstep.2 (by simp)
  · rcases h2 : best_target servers source_server with _ | bt
    · simp only [smart_source_step, h1, h2, Prod.mk.injEq] at hstep
      exact absurd hstep.2 (by simp)
    · rcases h3 : chunk_to_send source_server bt with _ | c'
      · simp only [smart_source_step, h1, h2, h3, Prod.mk.injEq] at hstep
        exact absurd hstep.2 (by simp)
      · simp only [smart_source_step, h1, h2, h3, Prod.mk.injEq] at hstep
        have htr := Option.some.inj hstep.2
        rw [← htr]
        exact h i0 source_server h1

lemma smart_pass_sources_sublist :
    ∀ (avail : List Nat) (servers : List Server), IdsProp servers →
      ((smart_pass servers avail).2.map Transfer.source).Sublist avail := by
  intro avail
  induction avail with
  | nil => intro servers _; simp [smart_pass]
  | cons i0 rest ih =>
    intro servers h
    rcases hstep : smart_source_step servers i0 with ⟨servers1, trOpt⟩
    have h1 : IdsProp servers1 := by
      have := idsProp_smart_source_step servers i0 h
      rw [hstep] at this
      exact this
    rcases hpass : smart_pass servers1 rest with ⟨servers2, trs⟩
    have hsub : (trs.map Transfer.source).Sublist rest := by
      have := ih servers1 h1
      rw [hpass] at this
      exact this
    cases trOpt with
    | none =>
      simp only [smart_pass, hstep, hpass, Option.toList, List.nil_append]
      exact hsub.cons i0
    | some tr =>
      have hsrc : tr.source = i0 := smart_source_step_source servers i0 h servers1 tr hstep
      simp only [smart_pass, hstep, hpass, Option.toList, List.cons_append, List.nil_append,
        List.map_cons, hsrc]
      exact hsub.cons₂ i0

lemma available_servers_nodup (servers : List Server) :
    (available_servers servers).Nodup :=
  List.Nodup.filter _ (List.nodup_range _)

/-- C7: within any single tick from a state whose server ids match their
positions (a data-model invariant), no server id appears as the source of
more than one recorded transfer — under either strategy. -/
theorem C7_single_sender_exclusivity (st : SimState) (h : idsAligned st.servers = true) :
    ((smart_transfer_trace st).map Transfer.source).Nodup ∧
      ((naive_transfer_trace st).map Transfer.source).Nodup := by
  constructor
  · exact List.Nodup.sublist
      (smart_pass_sources_sublist (available_servers st.servers) st.servers
        (idsProp_of_aligned _ h))
      (available_servers_nodup st.servers)
  · apply length_le_one_nodup
    rw [List.length_map]
    exact naive_trace_len st

theorem C7_witness :
    ((smart_transfer_trace (initState 3)).map Transfer.source).Nodup ∧
      ((naive_transfer_trace (initState 3)).map Transfer.source).Nodup :=
  C7_single_sender_exclusivity (initState 3) (by decide)

/-! ### The naive strategy's arithmetic (C6) -/

lemma naive_area_casts (st : SimState) (h2 : 2 ≤ st.num_servers) :
    (st.num_servers : Int) - 1 = ((st.num_servers - 1 : Nat) : Int) ∧
      ((st.num_servers - 1 : Nat) : Int) ≠ 0 ∧
      Int.fmod (st.current_tick : Int) ((st.num_servers - 1 : Nat) : Int) =
        ((st.current_tick % (st.num_servers - 1) : Nat) : Int) ∧
      Int.fdiv (st.current_tick : Int) ((st.num_servers - 1 : Nat) : Int) =
        ((st.current_tick / (st.num_servers - 1) : Nat) : Int) := by
  refine ⟨?_, ?_, ?_, ?_⟩
  · have h1 : 1 ≤ st.num_servers := le_trans (by norm_num) h2
    push_cast [Nat.cast_sub h1]
    ring
  · have : st.num_servers - 1 ≠ 0 := by omega
    exact_mod_cast Int.natCast_ne_zero.mpr this
  · exact (Int.ofNat_fmod _ _).symm
  · exact (Int.ofNat_fdiv _ _).symm

/-- What one naive tick does, in terms of `setServerChunk` and
`markTransmitting`, for `num_servers ≥ 2` and the data-model shape
invariants. -/
lemma naive_transfer_characterisation (st : SimState) (h2 : 2 ≤ st.num_servers)
    (hsz : chunksSized st.servers = true)
    (hlen : st.servers.length = st.num_servers) :
    (st.current_tick / (st.num_servers - 1) < NUM_CHUNKS →
      naive_transfer st = .ok { st with servers := (markTransmitting
          (setServerChunk st.servers (st.current_tick % (st.num_servers - 1) + 1)
            (st.current_tick / (st.num_servers - 1))) 0
          (st.current_tick % (st.num_servers - 1) + 1)) } ∧
      naive_transfer_trace st = [⟨0, st.current_tick % (st.num_servers - 1) + 1,
        st.current_tick / (st.num_servers - 1)⟩]) ∧
    (NUM_CHUNKS ≤ st.current_tick / (st.num_servers - 1) →
      naive_transfer st = .ok st ∧ naive_transfer_trace st = []) := by
  obtain ⟨hc, hne, hfmod, hfdiv⟩ := naive_area_casts st h2
  have hmpos : 0 < st.num_servers - 1 := by omega
  have htmod : st.current_tick % (st.num_servers - 1) < st.num_servers - 1 :=
    Nat.mod_lt _ hmpos
  have htgtlt : st.current_tick % (st.num_servers - 1) + 1 < st.servers.length := by omega
  rcases htg : st.servers[st.current_tick % (st.num_servers - 1) + 1]? with _ | tgtS
  · rw [List.getElem?_eq_none_iff] at htg
    omega
  · have hchlen : tgtS.chunks.length = NUM_CHUNKS := by
      have hmem := List.getElem?_mem htg
      have := List.all_eq_true.mp hsz _ hmem
      simpa using this
    constructor
    · intro hlt
      rcases h0 : (st.servers.set (st.current_tick % (st.num_servers - 1) + 1)
          { tgtS with chunks :=
              tgtS.chunks.set (st.current_tick / (st.num_servers - 1)) true })[0]? with _ | server0
      · exfalso
        rw [List.getElem?_eq_none_iff, List.length_set] at h0
        omega
      · have hcore : naive_transfer_core st = .ok
            ({ st with servers := (markTransmitting
                  (setServerChunk st.servers (st.current_tick % (st.num_servers - 1) + 1)
                    (st.current_tick / (st.num_servers - 1))) 0
                  (st.current_tick % (st.num_servers - 1) + 1)) },
              [⟨0, st.current_tick % (st.num_servers - 1) + 1,
                st.current_tick / (st.num_servers - 1)⟩]) := by
          have hcast1 : ((st.current_tick % (st.num_servers - 1) : Nat) : Int) + 1 =
              ((st.current_tick % (st.num_servers - 1) + 1 : Nat) : Int) := by
            push_cast
            ring
          simp only [naive_transfer_core, hc, hfmod, hfdiv]
          rw [if_neg hne, hcast1]
          rw [if_pos (by exact_mod_cast hlt)]
          rw [Int.toNat_ofNat, Int.toNat_ofNat, htg]
          dsimp only
          rw [if_pos (by rw [hchlen]; exact hlt)]
          rw [h0]
          dsimp only
          simp only [Except.ok.injEq, Prod.mk.injEq]
          constructor
          · unfold markTransmitting setServerChunk
            rw [htg, h0]
          · trivial
        constructor
        · unfold naive_transfer
          rw [hcore]
          rfl
        · unfold naive_transfer_trace
          rw [hcore]
    · intro hge
      have hcore : naive_transfer_core st = .ok (st, []) := by
        simp only [naive_transfer_core, hc, hfmod, hfdiv]
        rw [if_neg hne]
        rw [if_neg (by exact_mod_cast Nat.not_lt.mpr hge)]
      constructor
      · unfold naive_transfer
        rw [hcore]
        rfl
      · unfold naive_transfer_trace
        rw [hcore]

/-- C6: for any tick counter and `num_servers ≥ 2` (with the data-model
shape invariants), the naive strategy computes
`target_id = t % (num_servers - 1) + 1` and `chunk_id = t / (num_servers - 1)`;
when `chunk_id < NUM_CHUNKS` it marks chunk `chunk_id` present at server
`target_id` and marks server 0 as transmitting to `target_id` (recording
the single transfer `(0, target_id, chunk_id)`), and when
`chunk_id ≥ NUM_CHUNKS` it changes nothing. -/
theorem C6_naive_step_characterisation (st : SimState) (h2 : 2 ≤ st.num_servers)
    (hsz : chunksSized st.servers = true)
    (hlen : st.servers.length = st.num_servers) :
    (st.current_tick / (st.num_servers - 1) < NUM_CHUNKS →
      naive_transfer st = .ok { st with servers := (markTransmitting
          (setServerChunk st.servers (st.current_tick % (st.num_servers - 1) + 1)
            (st.current_tick / (st.num_servers - 1))) 0
          (st.current_tick % (st.num_servers - 1) + 1)) } ∧
      naive_transfer_trace st = [⟨0, st.current_tick % (st.num_servers - 1) + 1,
        st.current_tick / (st.num_servers - 1)⟩]) ∧
    (NUM_CHUNKS ≤ st.current_tick / (st.num_servers - 1) →
      naive_transfer st = .ok st ∧ naive_transfer_trace st = []) :=
  naive_transfer_characterisation st h2 hsz hlen

theorem C6_witness :
    naive_transfer (initState 5) = Except.ok { initState 5 with
      servers := (markTransmitting (setServerChunk (initState 5).servers 1 0) 0 1) } ∧
      naive_transfer_trace (initState 5) = [⟨0, 1, 0⟩] :=
  (C6_naive_step_characterisation (initState 5) (by decide) (by decide) (by decide)).1 (by decide)

/-! ### Exact naive run length (C2) -/

lemma set_self_of_getElem {α : Type} (l : List α) (i : Nat) (a : α)
    (h : l[i]? = some a) : l.set i a = l := by
  apply List.ext_getElem?
  intro j
  rw [List.getElem?_set]
  rcases eq_or_ne i j with rfl | hij
  · rw [if_pos rfl, if_pos (List.getElem?_eq_some_iff.mp h).1]
    exact h.symm
  · rw [if_neg hij]

lemma reset_markTransmitting (l : List Server) (sid tid : Nat) :
    reset_transmission (markTransmitting l sid tid) = reset_transmission l := by
  unfold markTransmitting
  rcases hs : l[sid]? with _ | s
  · rfl
  · unfold reset_transmission
    rw [List.map_set]
    apply set_self_of_getElem
    rw [List.getElem?_map, hs]
    rfl

lemma reset_transmission_eq_self (l : List Server)
    (h : ∀ s ∈ l, s.is_transmitting = false ∧ s.transmitting_to = none) :
    reset_transmission l = l := by
  unfold reset_transmission
  have hcongr : ∀ s ∈ l,
      (fun server => { server with is_transmitting := false, transmitting_to := none }) s
        = id s := by
    intro s hs
    rcases h s hs with ⟨h1, h2⟩
    cases s
    simp_all
  rw [List.map_congr_left hcongr, List.map_id]

lemma naiveStateAt_servers_length (n t : Nat) : (naiveStateAt n t).servers.length = n := by
  simp [naiveStateAt]

lemma naiveStateAt_chunksSized (n t : Nat) : chunksSized (naiveStateAt n t).servers = true := by
  rw [chunksSized, List.all_eq_true]
  intro s hs
  rw [naiveStateAt] at hs
  simp only [List.mem_map, List.mem_range] at hs
  obtain ⟨i, _, rfl⟩ := hs
  simp

lemma naiveStateAt_getElem (n t i : Nat) (hi : i < n) :
    (naiveStateAt n t).servers[i]? = some
      { id := i
        chunks := (List.range NUM_CHUNKS).map fun c =>
          decide (i = 0) || (decide (1 ≤ i) && decide (c * (n - 1) + (i - 1) < t))
        is_transmitting := false
        transmitting_to := none } := by
  unfold naiveStateAt
  simp only [List.getElem?_map, List.getElem?_range hi, Option.map_some']

lemma naiveStateAt_zero (n : Nat) : initState n = naiveStateAt n 0 := by
  unfold initState naiveStateAt
  congr 1
  apply List.map_congr_left
  intro i _
  congr 1
  apply List.ext_getElem?
  intro c
  rw [List.getElem?_replicate]
  by_cases hc : c < NUM_CHUNKS
  · rw [if_pos hc, List.getElem?_map, List.getElem?_range hc, Option.map_some']
    simp
  · rw [if_neg hc, List.getElem?_map,
      List.getElem?_eq_none (by simpa using Nat.le_of_not_lt hc)]
    rfl

lemma naive_div_mod_unique (n t c i : Nat) (h2 : 2 ≤ n) (hi1 : 1 ≤ i) (hin : i < n)
    (hx : c * (n - 1) + (i - 1) = t) : i = t % (n - 1) + 1 ∧ c = t / (n - 1) := by
  have hm : 0 < n - 1 := by omega
  have hi2 : i - 1 < n - 1 := by omega
  constructor
  · have : t % (n - 1) = i - 1 := by
      rw [← hx, Nat.mul_comm, Nat.mul_add_mod]
      exact Nat.mod_eq_of_lt hi2
    omega
  · have : t / (n - 1) = c := by
      rw [← hx, Nat.mul_comm, Nat.mul_add_div hm]
      rw [Nat.div_eq_of_lt hi2, Nat.add_zero]
    omega

lemma naive_bit_stable (n t c i : Nat) (h2 : 2 ≤ n) (hin : i < n)
    (hne : ¬(i = t % (n - 1) + 1 ∧ c = t / (n - 1))) :
    (decide (i = 0) || (decide (1 ≤ i) && decide (c * (n - 1) + (i - 1) < t))) =
      (decide (i = 0) || (decide (1 ≤ i) && decide (c * (n - 1) + (i - 1) < t + 1))) := by
  by_cases hi : i = 0
  · simp [hi]
  · have hi1 : 1 ≤ i := by omega
    have hxt : c * (n - 1) + (i - 1) ≠ t := by
      intro hx
      exact hne (naive_div_mod_unique n t c i h2 hi1 hin hx)
    have hd : decide (c * (n - 1) + (i - 1) < t) = decide (c * (n - 1) + (i - 1) < t + 1) := by
      apply decide_eq_decide.mpr
      generalize hgen : c * (n - 1) + (i - 1) = x at hxt ⊢
      omega
    rw [hd]

lemma naive_setChunk_eq (n t : Nat) (h2 : 2 ≤ n) (hlt : t < NUM_CHUNKS * (n - 1)) :
    setServerChunk (naiveStateAt n t).servers (t % (n - 1) + 1) (t / (n - 1)) =
      (naiveStateAt n (t + 1)).servers := by
  have hm : 0 < n - 1 := by omega
  have htgt : t % (n - 1) + 1 < n := by
    have := Nat.mod_lt t hm
    omega
  have hc0 : t / (n - 1) < NUM_CHUNKS := by
    rw [Nat.div_lt_iff_lt_mul hm]
    exact hlt
  unfold setServerChunk
  rw [naiveStateAt_getElem n t _ htgt]
  apply List.ext_getElem?
  intro j
  rw [List.getElem?_set]
  rcases eq_or_ne (t % (n - 1) + 1) j with rfl | hj
  · rw [if_pos rfl, if_pos (by rw [naiveStateAt_servers_length]; exact htgt)]
    rw [naiveStateAt_getElem n (t + 1) _ htgt]
    congr 2
    apply List.ext_getElem?
    intro c
    rw [List.getElem?_set]
    rcases eq_or_ne (t / (n - 1)) c with rfl | hc
    · rw [if_pos rfl, if_pos (by simpa using hc0), List.getElem?_map,
        List.getElem?_range hc0, Option.map_some']
      have hxt : t / (n - 1) * (n - 1) + t % (n - 1) < t + 1 := by
        rw [Nat.div_add_mod']
        omega
      simp [hxt]
    · rw [if_neg hc]
      by_cases hcn : c < NUM_CHUNKS
      · rw [List.getElem?_map, List.getElem?_range hcn,
          List.getElem?_map, List.getElem?_range hcn, Option.map_some', Option.map_some']
        congr 1
        exact naive_bit_stable n t c _ h2 htgt (by
          intro hcc
          exact hc hcc.2.symm)
      · rw [List.getElem?_map, List.getElem?_map,
          List.getElem?_eq_none (by simpa using Nat.le_of_not_lt hcn)]
        rfl
  · rw [if_neg hj]
    by_cases hjn : j < n
    · rw [naiveStateAt_getElem n t _ hjn, naiveStateAt_getElem n (t + 1) _ hjn]
      congr 2
      apply List.map_congr_left
      intro c hc
      rw [List.mem_range] at hc
      exact naive_bit_stable n t c j h2 hjn (by
        intro hcc
        exact hj hcc.1.symm)
    · rw [List.getElem?_eq_none (by rw [naiveStateAt_servers_length]; omega),
        List.getElem?_eq_none (by rw [naiveStateAt_servers_length]; omega)]

lemma naive_complete_iff (n t : Nat) (h2 : 2 ≤ n) :
    is_complete (naiveStateAt n t) = true ↔ NUM_CHUNKS * (n - 1) ≤ t := by
  have hm : 0 < n - 1 := by omega
  constructor
  · intro h
    by_contra hge
    have hlt : t < NUM_CHUNKS * (n - 1) := Nat.lt_of_not_le hge
    have hc0 : t / (n - 1) < NUM_CHUNKS := by
      rw [Nat.div_lt_iff_lt_mul hm]
      exact hlt
    have htgt : t % (n - 1) + 1 < n := by
      have := Nat.mod_lt t hm
      omega
    rw [is_complete, List.all_eq_true] at h
    have hmem := List.getElem?_mem (naiveStateAt_getElem n t (t % (n - 1) + 1) htgt)
    have hall := h _ hmem
    rw [List.all_eq_true] at hall
    have hbmem := List.mem_map_of_mem
      (fun c => decide (t % (n - 1) + 1 = 0) ||
        (decide (1 ≤ t % (n - 1) + 1) && decide (c * (n - 1) + (t % (n - 1) + 1 - 1) < t)))
      (List.mem_range.mpr hc0)
    have hbit := hall _ hbmem
    simp at hbit
    rw [Nat.div_add_mod'] at hbit
    exact absurd hbit (lt_irrefl t)
  · intro h
    rw [is_complete, List.all_eq_true]
    intro s hs
    rw [naiveStateAt] at hs
    simp only [List.mem_map, List.mem_range] at hs
    obtain ⟨i, hin, rfl⟩ := hs
    rw [List.all_eq_true]
    intro b hb
    simp only [List.mem_map, List.mem_range] at hb
    obtain ⟨c, hc, rfl⟩ := hb
    by_cases hi : i = 0
    · simp [hi]
    · have hi1 : 1 ≤ i := by omega
      have hxt : c * (n - 1) + (i - 1) < t := by
        have h3 : c * (n - 1) + (i - 1) < c * (n - 1) + (n - 1) :=
          Nat.add_lt_add_left (by omega) _
        have h4 : c * (n - 1) + (n - 1) = (c + 1) * (n - 1) := by ring
        have h5 : (c + 1) * (n - 1) ≤ NUM_CHUNKS * (n - 1) :=
          Nat.mul_le_mul_right _ (by omega)
        calc c * (n - 1) + (i - 1) < (c + 1) * (n - 1) := h4 ▸ h3
          _ ≤ NUM_CHUNKS * (n - 1) := h5
          _ ≤ t := h
      simp [hxt, hi1]

lemma naive_sim_step (n t : Nat) (h2 : 2 ≤ n) (hlt : t < NUM_CHUNKS * (n - 1)) :
    sim_step "naive" (naiveStateAt n t) = .ok (naiveStateAt n (t + 1)) := by
  have hm : 0 < n - 1 := by omega
  have hc0 : t / (n - 1) < NUM_CHUNKS := by
    rw [Nat.div_lt_iff_lt_mul hm]
    exact hlt
  have hch := naive_transfer_characterisation (naiveStateAt n t) h2
    (naiveStateAt_chunksSized n t) (naiveStateAt_servers_length n t)
  have hnt := hch.1 hc0
  have hservers : reset_transmission
      (markTransmitting
        (setServerChunk (naiveStateAt n t).servers (t % (n - 1) + 1) (t / (n - 1))) 0
        (t % (n - 1) + 1)) = (naiveStateAt n (t + 1)).servers := by
    rw [reset_markTransmitting, naive_setChunk_eq n t h2 hlt]
    apply reset_transmission_eq_self
    intro s hs
    rw [naiveStateAt] at hs
    simp only [List.mem_map, List.mem_range] at hs
    obtain ⟨i, _, rfl⟩ := hs
    exact ⟨rfl, rfl⟩
  unfold sim_step
  rw [if_pos rfl, hnt.1]
  dsimp only
  congr 1
  rw [show (naiveStateAt n t).current_tick = t from rfl,
    show (naiveStateAt n t).num_servers = n from rfl]
  rw [hservers]
  rfl

lemma naive_run_loop (n : Nat) (h2 : 2 ≤ n) :
    ∀ k t, t + k = NUM_CHUNKS * (n - 1) →
      run_loop "naive" (k + 1) (naiveStateAt n t) = some (.ok (NUM_CHUNKS * (n - 1))) := by
  intro k
  induction k with
  | zero =>
    intro t ht
    have hc : is_complete (naiveStateAt n t) = true :=
      (naive_complete_iff n t h2).mpr (by omega)
    have htt : t = NUM_CHUNKS * (n - 1) := by omega
    subst htt
    unfold run_loop
    rw [hc]
    rfl
  | succ k ih =>
    intro t ht
    have hlt : t < NUM_CHUNKS * (n - 1) := by omega
    have hc : is_complete (naiveStateAt n t) = false := by
      rcases Bool.eq_false_or_eq_true (is_complete (naiveStateAt n t)) with h | h
      · exact absurd ((naive_complete_iff n t h2).mp h) (by omega)
      · exact h
    unfold run_loop
    rw [hc]
    simp only [Bool.false_eq_true, if_false]
    rw [naive_sim_step n t h2 hlt]
    exact ih (t + 1) (by omega)

/-- C2: for every `num_servers = n ≥ 2`, the naive run takes exactly
`(n - 1) * NUM_CHUNKS` ticks. -/
theorem C2_naive_exact_tick_count (num_servers : Nat) (h2 : 2 ≤ num_servers) :
    run_simulation num_servers "naive" =
      some (Except.ok ((num_servers - 1) * NUM_CHUNKS)) := by
  unfold run_simulation
  rw [naiveStateAt_zero num_servers]
  rw [Nat.mul_comm (num_servers - 1) NUM_CHUNKS]
  exact naive_run_loop num_servers h2 (NUM_CHUNKS * (num_servers - 1)) 0 (by omega)

theorem C2_witness : run_simulation 5 "naive" = some (Except.ok 64) := by
  have h := C2_naive_exact_tick_count 5 (by norm_num)
  simpa [NUM_CHUNKS] using h

/-! ### Smart-run counting machinery (C1) -/

lemma sum_map_set {α : Type} (f : α → Nat) :
    ∀ (l : List α) (j : Nat) (v a : α), l[j]? = some a →
      ((l.set j v).map f).sum + f a = (l.map f).sum + f v := by
  intro l
  induction l with
  | nil =>
    intro j v a h
    simp at h
  | cons x xs ih =>
    intro j v a h
    cases j with
    | zero =>
      simp only [List.getElem?_cons_zero, Option.some.injEq] at h
      subst h
      simp only [List.set, List.map_cons, List.sum_cons]
      omega
    | succ j =>
      simp only [List.getElem?_cons_succ] at h
      have := ih j v a h
      simp only [List.set, List.map_cons, List.sum_cons]
      omega

lemma countFalse_set_true_le (l : List Bool) :
    ∀ c : Nat, ((l.set c true).filter fun chunk => !chunk).length ≤
      (l.filter fun chunk => !chunk).length := by
  induction l with
  | nil =>
    intro c
    simp [List.set]
  | cons x xs ih =>
    intro c
    cases c with
    | zero =>
      simp only [List.set]
      rw [List.filter_cons, List.filter_cons]
      cases x <;> simp
    | succ c =>
      simp only [List.set]
      rw [List.filter_cons, List.filter_cons]
      have := ih c
      cases x <;> simp <;> omega

lemma countFalse_set_true_lt (l : List Bool) :
    ∀ c : Nat, l[c]? = some false →
      ((l.set c true).filter fun chunk => !chunk).length <
        (l.filter fun chunk => !chunk).length := by
  induction l with
  | nil =>
    intro c h
    simp at h
  | cons x xs ih =>
    intro c h
    cases c with
    | zero =>
      simp only [List.getElem?_cons_zero, Option.some.injEq] at h
      subst h
      simp only [List.set]
      rw [List.filter_cons, List.filter_cons]
      simp
    | succ c =>
      simp only [List.getElem?_cons_succ] at h
      simp only [List.set]
      rw [List.filter_cons, List.filter_cons]
      have := ih c h
      cases x <;> simp <;> omega

lemma missing_setServerChunk_le (l : List Server) (sid c : Nat) :
    missing_count (setServerChunk l sid c) ≤ missing_count l := by
  unfold setServerChunk
  rcases hs : l[sid]? with _ | s
  · exact le_refl _
  · dsimp only
    unfold missing_count
    have hsum := sum_map_set (fun s => ((s.chunks.filter fun chunk => !chunk)).length) l sid
      { s with chunks := s.chunks.set c true } s hs
    have hle := countFalse_set_true_le s.chunks c
    simp only at hsum
    omega

lemma missing_setServerChunk_lt (l : List Server) (sid c : Nat) (s : Server)
    (hs : l[sid]? = some s) (hbit : s.chunks[c]? = some false) :
    missing_count (setServerChunk l sid c) < missing_count l := by
  unfold setServerChunk
  rw [hs]
  dsimp only
  unfold missing_count
  have hsum := sum_map_set (fun s => ((s.chunks.filter fun chunk => !chunk)).length) l sid
    { s with chunks := s.chunks.set c true } s hs
  have hlt := countFalse_set_true_lt s.chunks c hbit
  simp only at hsum
  omega

lemma missing_markTransmitting (l : List Server) (sid tid : Nat) :
    missing_count (markTransmitting l sid tid) = missing_count l := by
  unfold markTransmitting
  rcases hs : l[sid]? with _ | s
  · rfl
  · dsimp only
    unfold missing_count
    have hsum := sum_map_set (fun s => ((s.chunks.filter fun chunk => !chunk)).length) l sid
      { s with is_transmitting := true, transmitting_to := some tid } s hs
    simp only at hsum
    omega

lemma missing_reset (l : List Server) :
    missing_count (reset_transmission l) = missing_count l := by
  unfold missing_count reset_transmission
  rw [List.map_map]
  rfl

lemma missing_smart_source_step_le (l : List Server) (i0 : Nat) :
    missing_count (smart_source_step l i0).1 ≤ missing_count l := by
  rcases h1 : l[i0]? with _ | source_server
  · simp only [smart_source_step, h1]
    exact le_refl _
  · rcases h2 : best_target l source_server with _ | bt
    · simp only [smart_source_step, h1, h2]
      exact le_refl _
    · rcases h3 : chunk_to_send source_server bt with _ | c'
      · simp only [smart_source_step, h1, h2, h3]
        exact le_refl _
      · simp only [smart_source_step, h1, h2, h3]
        rw [missing_markTransmitting]
        exact missing_setServerChunk_le l bt.id c'

lemma missing_smart_pass_le :
    ∀ (avail : List Nat) (l : List Server),
      missing_count (smart_pass l avail).1 ≤ missing_count l := by
  intro avail
  induction avail with
  | nil =>
    intro l
    exact le_refl _
  | cons i0 rest ih =>
    intro l
    rcases hstep : smart_source_step l i0 with ⟨l1, tr⟩
    have h1 : missing_count l1 ≤ missing_count l := by
      have := missing_smart_source_step_le l i0
      rw [hstep] at this
      exact this
    rcases hpass : smart_pass l1 rest with ⟨l2, trs⟩
    have h2 : missing_count l2 ≤ missing_count l1 := by
      have := ih l1
      rw [hpass] at this
      exact this
    simp only [smart_pass, hstep, hpass]
    omega

lemma smart_pass_fst_cons (l : List Server) (i0 : Nat) (rest : List Nat) :
    (smart_pass l (i0 :: rest)).1 = (smart_pass (smart_source_step l i0).1 rest).1 := by
  rcases hstep : smart_source_step l i0 with ⟨l1, tr⟩
  rcases hpass : smart_pass l1 rest with ⟨l2, trs⟩
  simp [smart_pass, hstep, hpass]

lemma best_target_fold_some (src : Server) :
    ∀ (l : List Server) (acc : Option Server × Nat), acc.1.isSome = true →
      ((l.foldl
        (fun acc potential_target =>
          if potential_target.id = src.id then acc
          else if has_needed_chunks src potential_target
                  && decide (target_chunk_count potential_target < acc.2)
                  && !potential_target.is_transmitting
          then (some potential_target, target_chunk_count potential_target)
          else acc) acc).1).isSome = true := by
  intro l
  induction l with
  | nil =>
    intro acc h
    exact h
  | cons x xs ih =>
    intro acc h
    rw [List.foldl_cons]
    apply ih
    by_cases h1 : x.id = src.id
    · rw [if_pos h1]
      exact h
    · rw [if_neg h1]
      by_cases h2 : (has_needed_chunks src x && decide (target_chunk_count x < acc.2)
          && !x.is_transmitting) = true
      · rw [if_pos h2]
        rfl
      · rw [if_neg h2]
        exact h

lemma best_target_fold_isSome (src t : Server) :
    ∀ (l : List Server) (acc : Option Server × Nat),
      t ∈ l → acc.1.isSome = true ∨ acc.2 = NUM_CHUNKS →
      t.id ≠ src.id → has_needed_chunks src t = true →
      target_chunk_count t < NUM_CHUNKS → t.is_transmitting = false →
      ((l.foldl
        (fun acc potential_target =>
          if potential_target.id = src.id then acc
          else if has_needed_chunks src potential_target
                  && decide (target_chunk_count potential_target < acc.2)
                  && !potential_target.is_transmitting
          then (some potential_target, target_chunk_count potential_target)
          else acc) acc).1).isSome = true := by
  intro l
  induction l with
  | nil =>
    intro acc hmem
    exact absurd hmem (List.not_mem_nil t)
  | cons x xs ih =>
    intro acc hmem hacc hid hneed hcnt htrans
    rw [List.foldl_cons]
    rcases hacc with hsome | h16
    · apply best_target_fold_some
      by_cases h1 : x.id = src.id
      · rw [if_pos h1]
        exact hsome
      · rw [if_neg h1]
        by_cases h2 : (has_needed_chunks src x && decide (target_chunk_count x < acc.2)
            && !x.is_transmitting) = true
        · rw [if_pos h2]
          rfl
        · rw [if_neg h2]
          exact hsome
    · rcases List.mem_cons.mp hmem with rfl | hmem'
      · rw [if_neg hid]
        rw [if_pos (by
          rw [hneed, htrans, h16]
          simp [hcnt])]
        apply best_target_fold_some
        rfl
      · by_cases h1 : x.id = src.id
        · rw [if_pos h1]
          exact ih acc hmem' (Or.inr h16) hid hneed hcnt htrans
        · rw [if_neg h1]
          by_cases h2 : (has_needed_chunks src x && decide (target_chunk_count x < acc.2)
              && !x.is_transmitting) = true
          · rw [if_pos h2]
            exact ih _ hmem' (Or.inl rfl) hid hneed hcnt htrans
          · rw [if_neg h2]
            exact ih acc hmem' (Or.inr h16) hid hneed hcnt htrans

lemma best_target_isSome (servers : List Server) (src t : Server)
    (hmem : t ∈ servers) (hid : t.id ≠ src.id)
    (hneed : has_needed_chunks src t = true)
    (hcnt : target_chunk_count t < NUM_CHUNKS)
    (htrans : t.is_transmitting = false) :
    (best_target servers src).isSome = true := by
  unfold best_target
  exact best_target_fold_isSome src t servers ((none : Option Server), NUM_CHUNKS)
    hmem (Or.inr rfl) hid hneed hcnt htrans

lemma best_target_fold_spec (src bt : Server) :
    ∀ (l : List Server) (acc : Option Server × Nat),
      ((l.foldl
        (fun acc potential_target =>
          if potential_target.id = src.id then acc
          else if has_needed_chunks src potential_target
                  && decide (target_chunk_count potential_target < acc.2)
                  && !potential_target.is_transmitting
          then (some potential_target, target_chunk_count potential_target)
          else acc) acc).1) = some bt →
      acc.1 = some bt ∨ (bt ∈ l ∧ has_needed_chunks src bt = true) := by
  intro l
  induction l with
  | nil =>
    intro acc h
    exact Or.inl h
  | cons x xs ih =>
    intro acc h
    rw [List.foldl_cons] at h
    by_cases h1 : x.id = src.id
    · rw [if_pos h1] at h
      rcases ih acc h with h' | ⟨hm, hn⟩
      · exact Or.inl h'
      · exact Or.inr ⟨List.mem_cons_of_mem x hm, hn⟩
    · rw [if_neg h1] at h
      by_cases h2 : (has_needed_chunks src x && decide (target_chunk_count x < acc.2)
          && !x.is_transmitting) = true
      · rw [if_pos h2] at h
        rcases ih _ h with h' | ⟨hm, hn⟩
        · simp only [Option.some.injEq] at h'
          refine Or.inr ⟨?_, ?_⟩
          · rw [← h']
            exact List.mem_cons_self x xs
          · rw [← h']
            have h2' := h2
            simp only [Bool.and_eq_true] at h2'
            exact h2'.1.1
        · exact Or.inr ⟨List.mem_cons_of_mem x hm, hn⟩
      · rw [if_neg h2] at h
        rcases ih acc h with h' | ⟨hm, hn⟩
        · exact Or.inl h'
        · exact Or.inr ⟨List.mem_cons_of_mem x hm, hn⟩

lemma best_target_spec (servers : List Server) (src bt : Server)
    (h : best_target servers src = some bt) :
    bt ∈ servers ∧ has_needed_chunks src bt = true := by
  unfold best_target at h
  rcases best_target_fold_spec src bt servers ((none : Option Server), NUM_CHUNKS) h with
    h' | h'
  · exact absurd h' (by simp)
  · exact h'

lemma find_first_needed_isSome :
    ∀ (l : List (Bool × Bool)) (i : Nat), (l.any fun p => p.1 && !p.2) = true →
      (find_first_needed l i).isSome = true := by
  intro l
  induction l with
  | nil =>
    intro i h
    simp at h
  | cons p rest ih =>
    intro i h
    unfold find_first_needed
    by_cases hp : (p.1 && !p.2) = true
    · rw [if_pos hp]
      rfl
    · rw [if_neg hp]
      rw [List.any_cons] at h
      rcases Bool.or_eq_true_iff.mp h with h' | h'
      · exact absurd h' hp
      · exact ih (i + 1) h'

lemma find_first_needed_spec :
    ∀ (l : List (Bool × Bool)) (i j : Nat), find_first_needed l i = some j →
      i ≤ j ∧ ∃ p, l[j - i]? = some p ∧ p.1 = true ∧ p.2 = false := by
  intro l
  induction l with
  | nil =>
    intro i j h
    simp [find_first_needed] at h
  | cons p rest ih =>
    intro i j h
    unfold find_first_needed at h
    by_cases hp : (p.1 && !p.2) = true
    · rw [if_pos hp] at h
      injection h with h
      subst h
      have hp' := hp
      simp only [Bool.and_eq_true, Bool.not_eq_true'] at hp'
      exact ⟨le_refl i, p, by simp, hp'.1, hp'.2⟩
    · rw [if_neg hp] at h
      obtain ⟨hij, q, hq, hq1, hq2⟩ := ih (i + 1) j h
      refine ⟨by omega, q, ?_, hq1, hq2⟩
      have hji : j - i = (j - (i + 1)) + 1 := by omega
      rw [hji]
      simpa using hq

lemma chunk_to_send_spec (src tgt : Server) (c : Nat)
    (h : chunk_to_send src tgt = some c) :
    src.chunks[c]? = some true ∧ tgt.chunks[c]? = some false := by
  unfold chunk_to_send at h
  obtain ⟨_, q, hq, hq1, hq2⟩ := find_first_needed_spec _ 0 c h
  rw [Nat.sub_zero] at hq
  rw [List.getElem?_zip_eq_some] at hq
  constructor
  · rw [hq.1, hq1]
  · rw [hq.2, hq2]

lemma chunk_to_send_isSome (src tgt : Server) (h : has_needed_chunks src tgt = true) :
    (chunk_to_send src tgt).isSome = true :=
  find_first_needed_isSome _ 0 h

/-- Propositional form of the shape invariants: ids equal positions and
chunk lists have length `NUM_CHUNKS`. -/
def WFServers (l : List Server) : Prop :=
  ∀ (j : Nat) (s : Server), l[j]? = some s → s.id = j ∧ s.chunks.length = NUM_CHUNKS

/-- Invariant maintained at the top of every loop iteration of a smart run. -/
def SmartInv (st : SimState) : Prop :=
  st.servers.length = st.num_servers ∧ WFServers st.servers ∧
    (∀ s ∈ st.servers, s.is_transmitting = false) ∧ serverZeroFull st.servers = true

lemma wf_set (l : List Server) (sid : Nat) (s v : Server)
    (h : WFServers l) (hs : l[sid]? = some s) (hid : v.id = s.id)
    (hch : v.chunks.length = s.chunks.length) : WFServers (l.set sid v) := by
  intro j s' hj
  rcases eq_or_ne sid j with rfl | hne
  · rw [List.getElem?_set_self (List.getElem?_eq_some_iff.mp hs).1] at hj
    injection hj with hj
    subst hj
    obtain ⟨h1, h2⟩ := h sid s hs
    exact ⟨by rw [hid, h1], by rw [hch, h2]⟩
  · rw [List.getElem?_set_ne hne] at hj
    exact h j s' hj

lemma wf_setServerChunk (l : List Server) (sid c : Nat) (h : WFServers l) :
    WFServers (setServerChunk l sid c) := by
  unfold setServerChunk
  rcases hs : l[sid]? with _ | s
  · exact h
  · exact wf_set l sid s _ h hs rfl (List.length_set _ _ _)

lemma wf_markTransmitting (l : List Server) (sid tid : Nat) (h : WFServers l) :
    WFServers (markTransmitting l sid tid) := by
  unfold markTransmitting
  rcases hs : l[sid]? with _ | s
  · exact h
  · exact wf_set l sid s _ h hs rfl rfl

lemma wf_smart_source_step (l : List Server) (i0 : Nat) (h : WFServers l) :
    WFServers (smart_source_step l i0).1 := by
  rcases h1 : l[i0]? with _ | source_server
  · simp only [smart_source_step, h1]
    exact h
  · rcases h2 : best_target l source_server with _ | bt
    · simp only [smart_source_step, h1, h2]
      exact h
    · rcases h3 : chunk_to_send source_server bt with _ | c'
      · simp only [smart_source_step, h1, h2, h3]
        exact h
      · simp only [smart_source_step, h1, h2, h3]
        exact wf_markTransmitting _ _ _ (wf_setServerChunk _ _ _ h)

lemma wf_smart_pass :
    ∀ (avail : List Nat) (l : List Server), WFServers l →
      WFServers (smart_pass l avail).1 := by
  intro avail
  induction avail with
  | nil =>
    intro l h
    exact h
  | cons i0 rest ih =>
    intro l h
    rw [smart_pass_fst_cons]
    exact ih _ (wf_smart_source_step l i0 h)

lemma wf_reset (l : List Server) (h : WFServers l) :
    WFServers (reset_transmission l) := by
  intro j s' hj
  unfold reset_transmission at hj
  rw [List.getElem?_map] at hj
  rcases hs : l[j]? with _ | s
  · rw [hs] at hj
    exact absurd hj (by simp)
  · rw [hs] at hj
    simp only [Option.map_some', Option.some.injEq] at hj
    obtain ⟨h1, h2⟩ := h j s hs
    rw [← hj]
    exact ⟨h1, h2⟩

lemma length_setServerChunk (l : List Server) (sid c : Nat) :
    (setServerChunk l sid c).length = l.length := by
  unfold setServerChunk
  rcases l[sid]? with _ | s
  · rfl
  · exact List.length_set _ _ _

lemma length_markTransmitting (l : List Server) (sid tid : Nat) :
    (markTransmitting l sid tid).length = l.length := by
  unfold markTransmitting
  rcases l[sid]? with _ | s
  · rfl
  · exact List.length_set _ _ _

lemma length_smart_source_step (l : List Server) (i0 : Nat) :
    (smart_source_step l i0).1.length = l.length := by
  rcases h1 : l[i0]? with _ | source_server
  · simp only [smart_source_step, h1]
  · rcases h2 : best_target l source_server with _ | bt
    · simp only [smart_source_step, h1, h2]
    · rcases h3 : chunk_to_send source_server bt with _ | c'
      · simp only [smart_source_step, h1, h2, h3]
      · simp only [smart_source_step, h1, h2, h3]
        rw [length_markTransmitting, length_setServerChunk]

lemma length_smart_pass :
    ∀ (avail : List Nat) (l : List Server), (smart_pass l avail).1.length = l.length := by
  intro avail
  induction avail with
  | nil =>
    intro l
    rfl
  | cons i0 rest ih =>
    intro l
    rw [smart_pass_fst_cons, ih, length_smart_source_step]

lemma serverZeroFull_bits (l : List Server) (s0 : Server) (h0 : l[0]? = some s0) :
    serverZeroFull l = true ↔ ∀ (c : Nat) (b : Bool), s0.chunks[c]? = some b → b = true := by
  unfold serverZeroFull
  rw [h0]
  rw [List.all_eq_true]
  constructor
  · intro h c b hb
    exact h b (List.getElem?_mem hb)
  · intro h b hb
    obtain ⟨c, hc⟩ := List.getElem?_of_mem hb
    exact h c b hc

lemma serverZeroFull_preserved (l l' : List Server)
    (hwf : WFServers l) (hwf' : WFServers l') (hlen : 0 < l'.length)
    (hmono : ∀ c, getBit l 0 c = true → getBit l' 0 c = true)
    (hfull : serverZeroFull l = true) : serverZeroFull l' = true := by
  rcases h0 : l[0]? with _ | s0
  · rw [serverZeroFull, h0] at hfull
    exact absurd hfull (by simp)
  · rcases h0' : l'[0]? with _ | s0'
    · rw [List.getElem?_eq_none_iff] at h0'
      omega
    · rw [serverZeroFull_bits l' s0' h0']
      intro c b hb
      have hc16 : c < NUM_CHUNKS := by
        have := (hwf' 0 s0' h0').2
        have hcl := (List.getElem?_eq_some_iff.mp hb).1
        omega
      have hc16' : c < s0.chunks.length := by
        rw [(hwf 0 s0 h0).2]
        exact hc16
      rcases hb0 : s0.chunks[c]? with _ | b0
      · rw [List.getElem?_eq_none_iff] at hb0
        omega
      · have hb0t : b0 = true := (serverZeroFull_bits l s0 h0).mp hfull c b0 hb0
        have hgb : getBit l 0 c = true := by
          simp [getBit, h0, hb0, hb0t]
        have hgb' := hmono c hgb
        simp only [getBit, h0', hb, Option.getD_some] at hgb'
        exact hgb'

lemma incomplete_exists (st : SimState) (hnc : is_complete st = false) :
    ∃ (j : Nat) (s : Server) (c : Nat),
      st.servers[j]? = some s ∧ s.chunks[c]? = some false := by
  unfold is_complete at hnc
  have h1 : ¬ (∀ s ∈ st.servers, (s.chunks.all fun chunk => chunk) = true) := by
    rw [← List.all_eq_true]
    simp [hnc]
  push_neg at h1
  obtain ⟨s, hs, hsf⟩ := h1
  have h2 : ¬ (∀ b ∈ s.chunks, b = true) := by
    rw [← List.all_eq_true]
    exact hsf
  push_neg at h2
  obtain ⟨b, hb, hbf⟩ := h2
  obtain ⟨j, hj⟩ := List.getElem?_of_mem hs
  obtain ⟨c, hc⟩ := List.getElem?_of_mem hb
  have hbfalse : b = false := by
    cases b
    · rfl
    · exact absurd rfl hbf
  subst hbfalse
  exact ⟨j, s, c, hj, hc⟩

lemma smart_source_zero_progress (st : SimState) (hinv : SmartInv st)
    (hnc : is_complete st = false) :
    missing_count (smart_source_step st.servers 0).1 < missing_count st.servers := by
  obtain ⟨hlen, hwf, hflags, hfull⟩ := hinv
  rcases h0 : st.servers[0]? with _ | s0
  · rw [serverZeroFull, h0] at hfull
    exact absurd hfull (by simp)
  obtain ⟨j, s, c, hj, hc⟩ := incomplete_exists st hnc
  have hydj : s.id = j := (hwf j s hj).1
  have hs16 : s.chunks.length = NUM_CHUNKS := (hwf j s hj).2
  have h016 : s0.chunks.length = NUM_CHUNKS := (hwf 0 s0 h0).2
  have hj0 : j ≠ 0 := by
    intro hj0
    subst hj0
    rw [h0] at hj
    injection hj with hj
    subst hj
    have := (serverZeroFull_bits _ _ h0).mp hfull c false hc
    simp at this
  have hc16 : c < NUM_CHUNKS := by
    have := (List.getElem?_eq_some_iff.mp hc).1
    omega
  have hs0c : s0.chunks[c]? = some true := by
    rcases hb : s0.chunks[c]? with _ | b
    · rw [List.getElem?_eq_none_iff] at hb
      omega
    · have hbt := (serverZeroFull_bits _ _ h0).mp hfull c b hb
      rw [hbt]
  have hzip : (s0.chunks.zip s.chunks)[c]? = some (true, false) := by
    rw [List.getElem?_zip_eq_some]
    exact ⟨hs0c, hc⟩
  have hneed : has_needed_chunks s0 s = true := by
    rw [has_needed_chunks, List.any_eq_true]
    exact ⟨(true, false), List.getElem?_mem hzip, by decide⟩
  have hcnt : target_chunk_count s < NUM_CHUNKS := by
    rw [target_chunk_count, ← hs16]
    rw [List.length_filter_lt_length_iff_exists]
    exact ⟨false, List.getElem?_mem hc, by decide⟩
  have hid : s.id ≠ s0.id := by
    rw [hydj, (hwf 0 s0 h0).1]
    exact hj0
  have htrans : s.is_transmitting = false := hflags s (List.getElem?_mem hj)
  have hbts := best_target_isSome st.servers s0 s (List.getElem?_mem hj) hid hneed hcnt htrans
  obtain ⟨bt, hbt⟩ := Option.isSome_iff_exists.mp hbts
  obtain ⟨hbtmem, hbtneed⟩ := best_target_spec st.servers s0 bt hbt
  have hcts := chunk_to_send_isSome s0 bt hbtneed
  obtain ⟨c', hc'⟩ := Option.isSome_iff_exists.mp hcts
  obtain ⟨_, hbitf⟩ := chunk_to_send_spec s0 bt c' hc'
  obtain ⟨jb, hjb⟩ := List.getElem?_of_mem hbtmem
  have hbtid : bt.id = jb := (hwf jb bt hjb).1
  have hbtpos : st.servers[bt.id]? = some bt := by
    rw [hbtid]
    exact hjb
  simp only [smart_source_step, h0, hbt, hc']
  rw [missing_markTransmitting]
  exact missing_setServerChunk_lt st.servers bt.id c' bt hbtpos hbitf

lemma available_head (st : SimState) (hinv : SmartInv st) (hne : st.servers ≠ []) :
    ∃ rest, available_servers st.servers = 0 :: rest ∧ ∀ i ∈ rest, 1 ≤ i := by
  obtain ⟨hlen, hwf, hflags, hfull⟩ := hinv
  have hlpos : 0 < st.servers.length := List.length_pos.mpr hne
  rcases h0 : st.servers[0]? with _ | s0
  · rw [List.getElem?_eq_none_iff] at h0
    omega
  have h016 : s0.chunks.length = NUM_CHUNKS := (hwf 0 s0 h0).2
  have hhc : has_chunks s0 = true := by
    rcases hb : s0.chunks[0]? with _ | b
    · rw [List.getElem?_eq_none_iff, h016] at hb
      simp [NUM_CHUNKS] at hb
    · have hbt := (serverZeroFull_bits _ _ h0).mp hfull 0 b hb
      rw [has_chunks, List.any_eq_true]
      refine ⟨b, List.getElem?_mem hb, ?_⟩
      rw [hbt]
  have htr : s0.is_transmitting = false := hflags s0 (List.getElem?_mem h0)
  obtain ⟨m, hm⟩ : ∃ m, st.servers.length = m + 1 := ⟨st.servers.length - 1, by omega⟩
  unfold available_servers
  rw [hm, List.range_succ_eq_map, List.filter_cons]
  have hp : (match st.servers[0]? with
      | some server => has_chunks server && !server.is_transmitting
      | none => false) = true := by
    rw [h0]
    simp only
    rw [hhc, htr]
    rfl
  rw [hp]
  simp only [if_true]
  refine ⟨_, rfl, ?_⟩
  intro i hi
  rw [List.mem_filter] at hi
  rw [List.mem_map] at hi
  obtain ⟨⟨i0, _, rfl⟩, _⟩ := hi
  omega

lemma smart_transfer_missing_lt (st : SimState) (hinv : SmartInv st)
    (hnc : is_complete st = false) :
    missing_count (smart_transfer st).servers < missing_count st.servers := by
  have hne : st.servers ≠ [] := by
    intro h
    rw [is_complete, h] at hnc
    simp at hnc
  obtain ⟨rest, havail, _⟩ := available_head st hinv hne
  show missing_count (smart_pass st.servers (available_servers st.servers)).1 <
    missing_count st.servers
  rw [havail, smart_pass_fst_cons]
  calc missing_count (smart_pass (smart_source_step st.servers 0).1 rest).1
      ≤ missing_count (smart_source_step st.servers 0).1 := missing_smart_pass_le rest _
    _ < missing_count st.servers := smart_source_zero_progress st hinv hnc

lemma pos_filter_length (q : Server → Bool) :
    ∀ l : List Server,
      ((List.range l.length).filter fun i =>
        match l[i]? with
        | some s => q s
        | none => false).length = (l.filter q).length := by
  intro l
  induction l with
  | nil => rfl
  | cons x xs ih =>
    rw [List.length_cons, List.range_succ_eq_map, List.filter_cons, List.filter_cons]
    rw [List.filter_map]
    have hcomp : ((fun i =>
        match (x :: xs)[i]? with
        | some s => q s
        | none => false) ∘ Nat.succ) = (fun i =>
        match xs[i]? with
        | some s => q s
        | none => false) := by
      funext i
      simp only [Function.comp_apply, List.getElem?_cons_succ]
    rw [hcomp]
    by_cases hx : q x = true
    · rw [if_pos (by simp only [List.getElem?_cons_zero]; exact hx), if_pos hx]
      rw [List.length_cons, List.length_cons, List.length_map, ih]
    · rw [if_neg (by simp only [List.getElem?_cons_zero]; exact hx), if_neg hx]
      rw [List.length_map, ih]

lemma filter_set_le (q : Server → Bool) :
    ∀ (l : List Server) (j : Nat) (v : Server),
      ((l.set j v).filter q).length ≤ (l.filter q).length + 1 := by
  intro l
  induction l with
  | nil =>
    intro j v
    simp [List.set]
  | cons x xs ih =>
    intro j v
    cases j with
    | zero =>
      simp only [List.set]
      rw [List.filter_cons, List.filter_cons]
      by_cases hv : q v = true
      all_goals by_cases hx : q x = true
      all_goals simp [hv, hx]
      all_goals omega
    | succ j =>
      simp only [List.set]
      rw [List.filter_cons, List.filter_cons]
      have := ih j v
      by_cases hx : q x = true <;> simp [hx] <;> omega

lemma filter_set_eq (q : Server → Bool) :
    ∀ (l : List Server) (j : Nat) (v s : Server), l[j]? = some s → q v = q s →
      ((l.set j v).filter q).length = (l.filter q).length := by
  intro l
  induction l with
  | nil =>
    intro j v s h
    simp at h
  | cons x xs ih =>
    intro j v s h hq
    cases j with
    | zero =>
      simp only [List.getElem?_cons_zero, Option.some.injEq] at h
      subst h
      simp only [List.set]
      rw [List.filter_cons, List.filter_cons, hq]
      by_cases hx : q x = true <;> simp [hx]
    | succ j =>
      simp only [List.getElem?_cons_succ] at h
      simp only [List.set]
      rw [List.filter_cons, List.filter_cons]
      have := ih j v s h hq
      by_cases hx : q x = true <;> simp [hx] <;> omega

lemma nonempty_smart_source_step (l : List Server) (i0 : Nat) :
    nonempty_count (smart_source_step l i0).1 ≤ nonempty_count l + 1 := by
  rcases h1 : l[i0]? with _ | source_server
  · simp only [smart_source_step, h1]
    omega
  · rcases h2 : best_target l source_server with _ | bt
    · simp only [smart_source_step, h1, h2]
      omega
    · rcases h3 : chunk_to_send source_server bt with _ | c'
      · simp only [smart_source_step, h1, h2, h3]
        omega
      · simp only [smart_source_step, h1, h2, h3]
        unfold nonempty_count
        have hmark : ((markTransmitting (setServerChunk l bt.id c') source_server.id bt.id).filter
            has_chunks).length = ((setServerChunk l bt.id c').filter has_chunks).length := by
          unfold markTransmitting
          rcases hs : (setServerChunk l bt.id c')[source_server.id]? with _ | s
          · rfl
          · exact filter_set_eq has_chunks _ source_server.id _ s hs rfl
        rw [hmark]
        have hscs : ((setServerChunk l bt.id c').filter has_chunks).length ≤
            (l.filter has_chunks).length + 1 := by
          unfold setServerChunk
          rcases hs : l[bt.id]? with _ | s
          · dsimp only
            omega
          · dsimp only
            exact filter_set_le has_chunks l bt.id _
        exact hscs

lemma nonempty_smart_pass :
    ∀ (avail : List Nat) (l : List Server),
      nonempty_count (smart_pass l avail).1 ≤ nonempty_count l + avail.length := by
  intro avail
  induction avail with
  | nil =>
    intro l
    simp [smart_pass]
  | cons i0 rest ih =>
    intro l
    rw [smart_pass_fst_cons]
    calc nonempty_count (smart_pass (smart_source_step l i0).1 rest).1
        ≤ nonempty_count (smart_source_step l i0).1 + rest.length := ih _
      _ ≤ nonempty_count l + 1 + rest.length := by
          have := nonempty_smart_source_step l i0
          omega
      _ = nonempty_count l + (i0 :: rest).length := by
          rw [List.length_cons]
          omega

lemma available_le_nonempty (l : List Server) :
    (available_servers l).length ≤ nonempty_count l := by
  unfold available_servers nonempty_count
  rw [pos_filter_length (fun server => has_chunks server && !server.is_transmitting) l]
  rw [← List.countP_eq_length_filter, ← List.countP_eq_length_filter]
  refine List.countP_mono_left fun s _ h => ?_
  simp only [Bool.and_eq_true] at h
  exact h.1

lemma nonempty_smart_transfer (st : SimState) :
    nonempty_count (smart_transfer st).servers ≤ 2 * nonempty_count st.servers := by
  show nonempty_count (smart_pass st.servers (available_servers st.servers)).1 ≤ _
  calc nonempty_count (smart_pass st.servers (available_servers st.servers)).1
      ≤ nonempty_count st.servers + (available_servers st.servers).length :=
        nonempty_smart_pass _ _
    _ ≤ nonempty_count st.servers + nonempty_count st.servers := by
        have := available_le_nonempty st.servers
        omega
    _ = 2 * nonempty_count st.servers := by omega

lemma nonempty_reset (l : List Server) :
    nonempty_count (reset_transmission l) = nonempty_count l := by
  unfold nonempty_count reset_transmission
  rw [← List.countP_eq_length_filter, ← List.countP_eq_length_filter, List.countP_map]
  rfl

lemma nonempty_of_complete (st : SimState) (hwf : WFServers st.servers)
    (hc : is_complete st = true) : nonempty_count st.servers = st.servers.length := by
  unfold nonempty_count
  rw [List.filter_eq_self.mpr]
  intro s hs
  obtain ⟨j, hj⟩ := List.getElem?_of_mem hs
  have h16 : s.chunks.length = NUM_CHUNKS := (hwf j s hj).2
  rcases hb : s.chunks[0]? with _ | b
  · rw [List.getElem?_eq_none_iff, h16] at hb
    simp [NUM_CHUNKS] at hb
  · rw [is_complete, List.all_eq_true] at hc
    have := hc s hs
    rw [List.all_eq_true] at this
    have hbt := this b (List.getElem?_mem hb)
    rw [has_chunks, List.any_eq_true]
    refine ⟨b, List.getElem?_mem hb, hbt⟩

lemma flags_reset (l : List Server) :
    ∀ s ∈ reset_transmission l, s.is_transmitting = false := by
  intro s hs
  unfold reset_transmission at hs
  rw [List.mem_map] at hs
  obtain ⟨s', _, rfl⟩ := hs
  rfl

lemma sim_step_smart_eq (algorithm : String) (halg : algorithm ≠ "naive") (st : SimState) :
    sim_step algorithm st = .ok
      ⟨st.num_servers, st.current_tick + 1,
        reset_transmission (smart_transfer st).servers⟩ := by
  unfold sim_step
  rw [if_neg halg]
  rfl

lemma SmartInv_step (algorithm : String) (halg : algorithm ≠ "naive") (st st' : SimState)
    (hinv : SmartInv st) (hstep : sim_step algorithm st = .ok st') : SmartInv st' := by
  rw [sim_step_smart_eq algorithm halg st] at hstep
  injection hstep with hstep
  subst hstep
  obtain ⟨hlen, hwf, hflags, hfull⟩ := hinv
  have hwf1 : WFServers (smart_transfer st).servers :=
    wf_smart_pass _ _ hwf
  have hlen1 : (smart_transfer st).servers.length = st.servers.length :=
    length_smart_pass _ _
  refine ⟨?_, ?_, ?_, ?_⟩
  · show (reset_transmission (smart_transfer st).servers).length = st.num_servers
    rw [reset_transmission, List.length_map, hlen1, hlen]
  · exact wf_reset _ hwf1
  · exact flags_reset _
  · apply serverZeroFull_preserved st.servers _ hwf (wf_reset _ hwf1)
    · rw [reset_transmission, List.length_map, hlen1]
      have : st.servers ≠ [] := by
        intro h
        rw [serverZeroFull, h] at hfull
        simp at hfull
      exact List.length_pos.mpr this
    · intro c hb
      rw [getBit_reset]
      exact getBit_smart_pass_mono _ _ 0 c hb
    · exact hfull

lemma initState_length (n : Nat) : (initState n).servers.length = n := by
  simp [initState]

lemma initState_wf (n : Nat) : WFServers (initState n).servers := by
  intro j s hj
  unfold initState at hj
  rw [List.getElem?_map] at hj
  by_cases hjn : j < n
  · rw [List.getElem?_range hjn] at hj
    simp only [Option.map_some', Option.some.injEq] at hj
    rw [← hj]
    exact ⟨rfl, by simp⟩
  · rw [List.getElem?_eq_none (by simpa using Nat.le_of_not_lt hjn)] at hj
    exact absurd hj (by simp)

lemma initState_flags (n : Nat) : ∀ s ∈ (initState n).servers, s.is_transmitting = false := by
  intro s hs
  unfold initState at hs
  rw [List.mem_map] at hs
  obtain ⟨i, _, rfl⟩ := hs
  rfl

lemma initState_full (n : Nat) (h1 : 1 ≤ n) : serverZeroFull (initState n).servers = true := by
  have h0 : (initState n).servers[0]? = some
      { id := 0, chunks := List.replicate NUM_CHUNKS (decide ((0 : Nat) = 0)),
        is_transmitting := false, transmitting_to := none } := by
    unfold initState
    rw [List.getElem?_map, List.getElem?_range (by omega), Option.map_some']
  rw [serverZeroFull_bits _ _ h0]
  intro c b hb
  rw [List.getElem?_replicate] at hb
  split at hb
  · injection hb with hb
    rw [← hb]
    rfl
  · exact absurd hb (by simp)

lemma SmartInv_init (n : Nat) (h1 : 1 ≤ n) : SmartInv (initState n) :=
  ⟨initState_length n, initState_wf n, initState_flags n, initState_full n h1⟩

lemma countP_range_zero (n : Nat) (h1 : 1 ≤ n) :
    (List.range n).countP (fun i => decide (i = 0)) = 1 := by
  induction n with
  | zero => omega
  | succ m ih =>
    rw [List.range_succ, List.countP_append]
    by_cases hm : 1 ≤ m
    · rw [ih hm]
      have hm0 : (decide (m = 0)) = false := by
        simp
        omega
      simp [List.countP_cons, hm0]
    · have hm' : m = 0 := by omega
      subst hm'
      rfl

lemma nonempty_init (n : Nat) (h1 : 1 ≤ n) : nonempty_count (initState n).servers = 1 := by
  unfold nonempty_count initState
  rw [← List.countP_eq_length_filter, List.countP_map]
  have hfun : (has_chunks ∘ fun i =>
      ({ id := i
         chunks := List.replicate NUM_CHUNKS (decide (i = 0))
         is_transmitting := false
         transmitting_to := none } : Server)) = fun i => decide (i = 0) := by
    funext i
    by_cases hi : i = 0
    · subst hi
      rfl
    · have hif : (decide (i = 0)) = false := by
        simp
        omega
      simp only [Function.comp_apply, has_chunks, hif]
      rfl
  rw [hfun]
  exact countP_range_zero n h1

lemma missing_init (n : Nat) : missing_count (initState n).servers = (n - 1) * NUM_CHUNKS := by
  unfold missing_count initState
  rw [List.map_map]
  induction n with
  | zero => rfl
  | succ m ih =>
    rw [List.range_succ, List.map_append, List.sum_append, ih]
    by_cases hm : m = 0
    · subst hm
      rfl
    · have hif : (decide (m = 0)) = false := by
        simp
        omega
      simp only [List.map_cons, List.map_nil, List.sum_cons, List.sum_nil, Function.comp_apply,
        hif]
      rw [List.filter_replicate]
      simp only [Bool.not_false, if_true, List.length_replicate, ite_true]
      have h16 : NUM_CHUNKS = 16 := rfl
      rw [h16]
      omega

lemma smart_run_upper (algorithm : String) (halg : algorithm ≠ "naive") :
    ∀ (fuel : Nat) (st : SimState), SmartInv st → missing_count st.servers < fuel →
      ∃ k, run_loop algorithm fuel st = some (.ok k) ∧
        st.current_tick ≤ k ∧ k ≤ st.current_tick + missing_count st.servers := by
  intro fuel
  induction fuel with
  | zero =>
    intro st _ h
    omega
  | succ fuel ih =>
    intro st hinv hmiss
    by_cases hc : is_complete st = true
    · refine ⟨st.current_tick, ?_, le_refl _, by omega⟩
      unfold run_loop
      rw [hc]
      rfl
    · have hcf : is_complete st = false := by
        rcases Bool.eq_false_or_eq_true (is_complete st) with h | h
        · exact absurd h hc
        · exact h
      have hstep := sim_step_smart_eq algorithm halg st
      have hinv' : SmartInv (⟨st.num_servers, st.current_tick + 1,
          reset_transmission (smart_transfer st).servers⟩ : SimState) :=
        SmartInv_step algorithm halg st _ hinv hstep
      have hmiss' : missing_count (reset_transmission (smart_transfer st).servers) <
          missing_count st.servers := by
        rw [missing_reset]
        exact smart_transfer_missing_lt st hinv hcf
      obtain ⟨k, hrun, hk1, hk2⟩ := ih _ hinv' (by
        show missing_count (reset_transmission (smart_transfer st).servers) < fuel
        omega)
      refine ⟨k, ?_, ?_, ?_⟩
      · unfold run_loop
        rw [hcf]
        simp only [Bool.false_eq_true, if_false]
        rw [hstep]
        exact hrun
      · have hk1' : st.current_tick + 1 ≤ k := hk1
        omega
      · have hk2' : k ≤ st.current_tick + 1 +
            missing_count (reset_transmission (smart_transfer st).servers) := hk2
        omega

lemma smart_run_lower (algorithm : String) (halg : algorithm ≠ "naive") :
    ∀ (fuel : Nat) (st : SimState) (k : Nat), SmartInv st →
      run_loop algorithm fuel st = some (.ok k) →
      st.current_tick ≤ k ∧
        st.servers.length ≤ 2 ^ (k - st.current_tick) * nonempty_count st.servers := by
  intro fuel
  induction fuel with
  | zero =>
    intro st k _ h
    simp [run_loop] at h
  | succ fuel ih =>
    intro st k hinv hrun
    unfold run_loop at hrun
    by_cases hc : is_complete st = true
    · rw [hc] at hrun
      simp only [if_true] at hrun
      have hk : st.current_tick = k := by
        have := Option.some.inj hrun
        injection this
      refine ⟨by omega, ?_⟩
      rw [show k - st.current_tick = 0 by omega, pow_zero, one_mul]
      rw [nonempty_of_complete st hinv.2.1 hc]
    · have hcf : is_complete st = false := by
        rcases Bool.eq_false_or_eq_true (is_complete st) with h | h
        · exact absurd h hc
        · exact h
      rw [hcf] at hrun
      simp only [Bool.false_eq_true, if_false] at hrun
      rw [sim_step_smart_eq algorithm halg st] at hrun
      dsimp only at hrun
      have hinv' : SmartInv (⟨st.num_servers, st.current_tick + 1,
          reset_transmission (smart_transfer st).servers⟩ : SimState) :=
        SmartInv_step algorithm halg st _ hinv (sim_step_smart_eq algorithm halg st)
      obtain ⟨hk1, hk2⟩ := ih _ k hinv' hrun
      have hlen1 : (smart_transfer st).servers.length = st.servers.length :=
        length_smart_pass _ _
      have hlen' : (reset_transmission (smart_transfer st).servers).length =
          st.servers.length := by
        rw [reset_transmission, List.length_map, hlen1]
      have hne' : nonempty_count (reset_transmission (smart_transfer st).servers) ≤
          2 * nonempty_count st.servers := by
        rw [nonempty_reset]
        exact nonempty_smart_transfer st
      have hk1' : st.current_tick + 1 ≤ k := hk1
      refine ⟨by omega, ?_⟩
      have hexp : k - st.current_tick = (k - (st.current_tick + 1)) + 1 := by omega
      rw [hexp, pow_succ]
      calc st.servers.length
          = (reset_transmission (smart_transfer st).servers).length := hlen'.symm
        _ ≤ 2 ^ (k - (st.current_tick + 1)) *
            nonempty_count (reset_transmission (smart_transfer st).servers) := hk2
        _ ≤ 2 ^ (k - (st.current_tick + 1)) * (2 * nonempty_count st.servers) :=
            Nat.mul_le_mul_left _ hne'
        _ = 2 ^ (k - (st.current_tick + 1)) * 2 * nonempty_count st.servers := by ring

/-- C1: for every `num_servers = n ≥ 2` the smart run terminates and its
tick count `k` satisfies `⌈log₂ n⌉ ≤ k ≤ (n - 1) * NUM_CHUNKS` (the naive
bound). -/
theorem C1_smart_terminates_with_bounds (num_servers : Nat) (h2 : 2 ≤ num_servers) :
    ∃ k, run_simulation num_servers "smart" = some (Except.ok k) ∧
      Nat.clog 2 num_servers ≤ k ∧ k ≤ (num_servers - 1) * NUM_CHUNKS := by
  have hinv := SmartInv_init num_servers (by omega)
  have hmiss := missing_init num_servers
  obtain ⟨k, hrun, hk1, hk2⟩ := smart_run_upper "smart" (by decide)
    ((num_servers - 1) * NUM_CHUNKS + 1) (initState num_servers) hinv (by omega)
  refine ⟨k, hrun, ?_, ?_⟩
  · obtain ⟨_, hlow⟩ := smart_run_lower "smart" (by decide) _ _ k hinv hrun
    rw [initState_length, nonempty_init num_servers (by omega)] at hlow
    have htick : (initState num_servers).current_tick = 0 := rfl
    rw [htick, Nat.sub_zero, Nat.mul_one] at hlow
    rw [← Nat.le_pow_iff_clog_le (by norm_num)]
    exact hlow
  · have htick : (initState num_servers).current_tick = 0 := rfl
    rw [htick] at hk2
    omega

theorem C1_witness :
    ∃ k, run_simulation 4 "smart" = some (Except.ok k) ∧
      Nat.clog 2 4 ≤ k ∧ k ≤ (4 - 1) * NUM_CHUNKS :=
  C1_smart_terminates_with_bounds 4 (by norm_num)

/-! ### Per-tick target exclusivity along reachable runs (C3) -/

/-- The chunk list holding exactly the prefix `{0, …, k-1}` of chunks. -/
def pfx (k : Nat) : List Bool :=
  (List.range NUM_CHUNKS).map fun c => decide (c < k)

/-- The transfers recorded during the tick that `run_simulation` executes
from `st`: the dispatch mirrors the `if algorithm == 'naive'` of the
source. -/
def transfer_trace (algorithm : String) (st : SimState) : List Transfer :=
  if algorithm = "naive" then naive_transfer_trace st else smart_transfer_trace st

/-- One loop iteration of `run_simulation` as a relation. -/
def sim_step_rel (algorithm : String) (a b : SimState) : Prop :=
  sim_step algorithm a = .ok b

/-- The states visited at the top of the `while` loop during
`run_simulation num_servers algorithm`. -/
def ReachableSim (algorithm : String) (num_servers : Nat) (st : SimState) : Prop :=
  Relation.ReflTransGen (sim_step_rel algorithm) (initState num_servers) st

lemma pfx_length (k : Nat) : (pfx k).length = NUM_CHUNKS := by
  simp [pfx]

lemma pfx_getElem (k c : Nat) (hc : c < NUM_CHUNKS) : (pfx k)[c]? = some (decide (c < k)) := by
  rw [pfx, List.getElem?_map, List.getElem?_range hc, Option.map_some']

lemma pfx_inj_ne (a b : Nat) (ha : a < NUM_CHUNKS) (hab : a < b) : pfx a ≠ pfx b := by
  intro h
  have h1 := pfx_getElem a a ha
  have h2 := pfx_getElem b a ha
  rw [h] at h1
  rw [h1] at h2
  injection h2 with h2
  simp at h2
  omega

lemma replicate_true_pfx : List.replicate NUM_CHUNKS true = pfx NUM_CHUNKS := by
  decide

lemma replicate_false_pfx : List.replicate NUM_CHUNKS false = pfx 0 := by
  decide

lemma countP_range_lt (k : Nat) :
    ∀ n : Nat, (List.range n).countP (fun c => decide (c < k)) = min k n := by
  intro n
  induction n with
  | zero => simp
  | succ m ih =>
    rw [List.range_succ, List.countP_append, ih, List.countP_cons, List.countP_nil]
    by_cases hm : m < k
    · rw [if_pos (by simpa using hm)]
      omega
    · rw [if_neg (by simpa using hm)]
      omega

lemma target_chunk_count_pfx (s : Server) (k : Nat) (hs : s.chunks = pfx k)
    (hk : k ≤ NUM_CHUNKS) : target_chunk_count s = k := by
  rw [target_chunk_count, hs, pfx, ← List.countP_eq_length_filter, List.countP_map]
  have : ((fun chunk => chunk) ∘ fun c => decide (c < k)) = fun c => decide (c < k) := by
    funext c
    rfl
  rw [this, countP_range_lt]
  omega

lemma has_needed_pfx (s t : Server) (ks kt : Nat) (hs : s.chunks = pfx ks)
    (ht : t.chunks = pfx kt) (hks : ks ≤ NUM_CHUNKS) :
    has_needed_chunks s t = true ↔ kt < ks := by
  rw [has_needed_chunks, hs, ht, pfx, pfx, List.zip_map', List.any_eq_true]
  constructor
  · rintro ⟨x, hx, hpx⟩
    rw [List.mem_map] at hx
    obtain ⟨c, _, rfl⟩ := hx
    simp only [Bool.and_eq_true, decide_eq_true_eq, Bool.not_eq_true',
      decide_eq_false_iff_not, Nat.not_lt] at hpx
    omega
  · intro h
    refine ⟨(decide (kt < ks), decide (kt < kt)),
      List.mem_map_of_mem _ (List.mem_range.mpr (by omega)), ?_⟩
    simp only [Bool.and_eq_true, decide_eq_true_eq, Bool.not_eq_true',
      decide_eq_false_iff_not, Nat.not_lt]
    omega

lemma pfx_set (k : Nat) (hk : k < NUM_CHUNKS) : (pfx k).set k true = pfx (k + 1) := by
  apply List.ext_getElem?
  intro c
  rw [List.getElem?_set]
  rcases eq_or_ne k c with rfl | hkc
  · rw [if_pos rfl, if_pos (by rw [pfx_length]; exact hk), pfx_getElem _ _ hk]
    simp
  · rw [if_neg hkc]
    by_cases hc : c < NUM_CHUNKS
    · rw [pfx_getElem _ _ hc, pfx_getElem _ _ hc]
      have hd : decide (c < k) = decide (c < k + 1) := by
        apply decide_eq_decide.mpr
        omega
      rw [hd]
    · rw [List.getElem?_eq_none (by rw [pfx_length]; omega),
        List.getElem?_eq_none (by rw [pfx_length]; omega)]

lemma find_first_needed_min :
    ∀ (l : List (Bool × Bool)) (i j : Nat), find_first_needed l i = some j →
      ∀ k, k < j - i → ∀ p, l[k]? = some p → (p.1 && !p.2) = false := by
  intro l
  induction l with
  | nil =>
    intro i j h
    simp [find_first_needed] at h
  | cons q rest ih =>
    intro i j h k hk p hp
    unfold find_first_needed at h
    by_cases hq : (q.1 && !q.2) = true
    · rw [if_pos hq] at h
      injection h with h
      omega
    · rw [if_neg hq] at h
      cases k with
      | zero =>
        simp only [List.getElem?_cons_zero, Option.some.injEq] at hp
        rw [← hp]
        exact Bool.eq_false_iff.mpr hq
      | succ k =>
        simp only [List.getElem?_cons_succ] at hp
        have hij := (find_first_needed_spec rest (i + 1) j h).1
        exact ih (i + 1) j h k (by omega) p hp

lemma chunk_to_send_pfx (s t : Server) (ks kt : Nat) (hs : s.chunks = pfx ks)
    (ht : t.chunks = pfx kt) (hks : ks ≤ NUM_CHUNKS) (hlt : kt < ks) :
    chunk_to_send s t = some kt := by
  have hneed : has_needed_chunks s t = true := (has_needed_pfx s t ks kt hs ht hks).mpr hlt
  have hsome := chunk_to_send_isSome s t hneed
  obtain ⟨c, hc⟩ := Option.isSome_iff_exists.mp hsome
  obtain ⟨_, q, hq, hq1, hq2⟩ := find_first_needed_spec _ 0 c hc
  rw [Nat.sub_zero, List.getElem?_zip_eq_some] at hq
  obtain ⟨hq1', hq2'⟩ := hq
  rw [hs, pfx_getElem] at hq1'
  case hc =>
    have := (List.getElem?_eq_some_iff.mp hq1').1
    rw [pfx_length] at this
    exact this
  rw [ht, pfx_getElem] at hq2'
  case hc =>
    have := (List.getElem?_eq_some_iff.mp hq2').1
    rw [pfx_length] at this
    exact this
  injection hq1' with hq1'
  injection hq2' with hq2'
  rw [hq1] at hq1'
  rw [hq2] at hq2'
  have hckt : kt ≤ c := by
    have : ¬ (c < kt) := by
      intro hcc
      rw [show decide (c < kt) = true by simpa using hcc] at hq2'
      exact Bool.noConfusion hq2'
    omega
  have hkc : ¬ kt < c := by
    intro hcc
    have hmin := find_first_needed_min _ 0 c hc kt (by omega)
      (decide (kt < ks), decide (kt < kt))
    have hzip : (s.chunks.zip t.chunks)[kt]? = some (decide (kt < ks), decide (kt < kt)) := by
      rw [List.getElem?_zip_eq_some, hs, ht, pfx_getElem _ _ (by omega),
        pfx_getElem _ _ (by omega)]
      exact ⟨rfl, rfl⟩
    have := hmin hzip
    simp only [Bool.and_eq_true, decide_eq_true_eq, Bool.not_eq_true',
      decide_eq_false_iff_not, Nat.not_lt] at this
    rcases Bool.and_eq_false_iff.mp this with h' | h'
    · rw [show decide (kt < ks) = true by simpa using hlt] at h'
      exact Bool.noConfusion h'
    · have : (!decide (kt < kt)) = true := by simp
      rw [this] at h'
      exact Bool.noConfusion h'
  have : c = kt := by omega
  rw [this] at hc
  exact hc

lemma best_target_fold_mono (src : Server) :
    ∀ (l : List Server) (acc : Option Server × Nat),
      ((l.foldl
        (fun acc potential_target =>
          if potential_target.id = src.id then acc
          else if has_needed_chunks src potential_target
                  && decide (target_chunk_count potential_target < acc.2)
                  && !potential_target.is_transmitting
          then (some potential_target, target_chunk_count potential_target)
          else acc) acc).2) ≤ acc.2 := by
  intro l
  induction l with
  | nil =>
    intro acc
    exact le_refl _
  | cons x xs ih =>
    intro acc
    rw [List.foldl_cons]
    by_cases h1 : x.id = src.id
    · rw [if_pos h1]
      exact ih acc
    · rw [if_neg h1]
      by_cases h2 : (has_needed_chunks src x && decide (target_chunk_count x < acc.2)
          && !x.is_transmitting) = true
      · rw [if_pos h2]
        have hlt : target_chunk_count x < acc.2 := by
          simp only [Bool.and_eq_true, decide_eq_true_eq] at h2
          exact h2.1.2
        have := ih (some x, target_chunk_count x)
        calc ((xs.foldl _ (some x, target_chunk_count x)).2) ≤ target_chunk_count x := this
          _ ≤ acc.2 := by omega
      · rw [if_neg h2]
        exact ih acc

lemma best_target_fold_le (src t : Server) :
    ∀ (l : List Server) (acc : Option Server × Nat),
      t ∈ l → t.id ≠ src.id → has_needed_chunks src t = true → t.is_transmitting = false →
      ((l.foldl
        (fun acc potential_target =>
          if potential_target.id = src.id then acc
          else if has_needed_chunks src potential_target
                  && decide (target_chunk_count potential_target < acc.2)
                  && !potential_target.is_transmitting
          then (some potential_target, target_chunk_count potential_target)
          else acc) acc).2) ≤ target_chunk_count t := by
  intro l
  induction l with
  | nil =>
    intro acc hmem
    exact absurd hmem (List.not_mem_nil t)
  | cons x xs ih =>
    intro acc hmem hid hneed htr
    rw [List.foldl_cons]
    rcases List.mem_cons.mp hmem with rfl | hmem'
    · rw [if_neg hid]
      by_cases h2 : (has_needed_chunks src t && decide (target_chunk_count t < acc.2)
          && !t.is_transmitting) = true
      · rw [if_pos h2]
        exact best_target_fold_mono src xs _
      · rw [if_neg h2]
        have hge : acc.2 ≤ target_chunk_count t := by
          by_contra hcon
          apply h2
          rw [hneed, htr]
          simp only [Bool.not_false, Bool.and_true, Bool.true_and, decide_eq_true_eq]
          omega
        calc ((xs.foldl _ acc).2) ≤ acc.2 := best_target_fold_mono src xs acc
          _ ≤ target_chunk_count t := hge
    · by_cases h1 : x.id = src.id
      · rw [if_pos h1]
        exact ih acc hmem' hid hneed htr
      · rw [if_neg h1]
        by_cases h2 : (has_needed_chunks src x && decide (target_chunk_count x < acc.2)
            && !x.is_transmitting) = true
        · rw [if_pos h2]
          exact ih _ hmem' hid hneed htr
        · rw [if_neg h2]
          exact ih acc hmem' hid hneed htr

lemma best_target_fold_pair (src : Server) :
    ∀ (l : List Server) (acc : Option Server × Nat),
      (∀ x, acc.1 = some x → acc.2 = target_chunk_count x) →
      ∀ x, (l.foldl
        (fun acc potential_target =>
          if potential_target.id = src.id then acc
          else if has_needed_chunks src potential_target
                  && decide (target_chunk_count potential_target < acc.2)
                  && !potential_target.is_transmitting
          then (some potential_target, target_chunk_count potential_target)
          else acc) acc).1 = some x →
      (l.foldl
        (fun acc potential_target =>
          if potential_target.id = src.id then acc
          else if has_needed_chunks src potential_target
                  && decide (target_chunk_count potential_target < acc.2)
                  && !potential_target.is_transmitting
          then (some potential_target, target_chunk_count potential_target)
          else acc) acc).2 = target_chunk_count x := by
  intro l
  induction l with
  | nil =>
    intro acc hacc x hx
    exact hacc x hx
  | cons y xs ih =>
    intro acc hacc x hx
    rw [List.foldl_cons] at hx ⊢
    by_cases h1 : y.id = src.id
    · rw [if_pos h1] at hx ⊢
      exact ih acc hacc x hx
    · rw [if_neg h1] at hx ⊢
      by_cases h2 : (has_needed_chunks src y && decide (target_chunk_count y < acc.2)
          && !y.is_transmitting) = true
      · rw [if_pos h2] at hx ⊢
        refine ih _ ?_ x hx
        intro z hz
        injection hz with hz
        rw [← hz]
      · rw [if_neg h2] at hx ⊢
        exact ih acc hacc x hx

lemma best_target_count_le (servers : List Server) (src bt t : Server)
    (hb : best_target servers src = some bt) (ht : t ∈ servers) (hid : t.id ≠ src.id)
    (hneed : has_needed_chunks src t = true) (htr : t.is_transmitting = false) :
    target_chunk_count bt ≤ target_chunk_count t := by
  unfold best_target at hb
  have hpair := best_target_fold_pair src servers ((none : Option Server), NUM_CHUNKS)
    (by intro x hx; exact absurd hx (by simp)) bt hb
  have hle := best_target_fold_le src t servers ((none : Option Server), NUM_CHUNKS)
    ht hid hneed htr
  rw [hpair] at hle
  exact hle

lemma best_target_spec2 (servers : List Server) (src bt : Server)
    (h : best_target servers src = some bt) :
    bt ∈ servers ∧ has_needed_chunks src bt = true ∧ bt.id ≠ src.id ∧
      bt.is_transmitting = false := by
  unfold best_target at h
  suffices haux : ∀ (l : List Server) (acc : Option Server × Nat),
      (l.foldl
        (fun acc potential_target =>
          if potential_target.id = src.id then acc
          else if has_needed_chunks src potential_target
                  && decide (target_chunk_count potential_target < acc.2)
                  && !potential_target.is_transmitting
          then (some potential_target, target_chunk_count potential_target)
          else acc) acc).1 = some bt →
      acc.1 = some bt ∨ (bt ∈ l ∧ has_needed_chunks src bt = true ∧ bt.id ≠ src.id ∧
        bt.is_transmitting = false) by
    rcases haux servers ((none : Option Server), NUM_CHUNKS) h with h' | h'
    · exact absurd h' (by simp)
    · exact h'
  intro l
  induction l with
  | nil =>
    intro acc h'
    exact Or.inl h'
  | cons x xs ih =>
    intro acc h'
    rw [List.foldl_cons] at h'
    by_cases h1 : x.id = src.id
    · rw [if_pos h1] at h'
      rcases ih acc h' with h'' | ⟨hm, hrest⟩
      · exact Or.inl h''
      · exact Or.inr ⟨List.mem_cons_of_mem x hm, hrest⟩
    · rw [if_neg h1] at h'
      by_cases h2 : (has_needed_chunks src x && decide (target_chunk_count x < acc.2)
          && !x.is_transmitting) = true
      · rw [if_pos h2] at h'
        rcases ih _ h' with h'' | ⟨hm, hrest⟩
        · injection h'' with h''
          subst h''
          have h2' := h2
          simp only [Bool.and_eq_true, Bool.not_eq_true'] at h2'
          exact Or.inr ⟨List.mem_cons_self x xs, h2'.1.1, h1, h2'.2⟩
        · exact Or.inr ⟨List.mem_cons_of_mem x hm, hrest⟩
      · rw [if_neg h2] at h'
        rcases ih acc h' with h'' | ⟨hm, hrest⟩
        · exact Or.inl h''
        · exact Or.inr ⟨List.mem_cons_of_mem x hm, hrest⟩

/-- Chunk-distribution invariant for smart runs, with `m` the minimum chunk
count among servers in positions `≥ 1`: server 0 is full and every other
server holds a prefix `pfx k` of the chunk list with `k ∈ \x7bm, m + 1\x7d`. -/
def PrefixInv (l : List Server) (m : Nat) : Prop :=
  WFServers l ∧ (∀ s, l[0]? = some s → s.chunks = pfx NUM_CHUNKS) ∧
    (∀ (j : Nat) (s : Server), 1 ≤ j → l[j]? = some s →
      ∃ k, k ≤ NUM_CHUNKS ∧ s.chunks = pfx k ∧ (k = m ∨ k = m + 1))

/-- The minimum `m` of `PrefixInv` is realized by some server in a position
`≥ 1`, unless there is at most one server. -/
def RealizedOrSmall (l : List Server) (m : Nat) : Prop :=
  (∃ (j : Nat) (s : Server), 1 ≤ j ∧ l[j]? = some s ∧ s.chunks = pfx m) ∨ l.length ≤ 1

/-- Invariant holding at the top of every smart loop iteration. -/
def TickInv (st : SimState) : Prop :=
  ∃ m, PrefixInv st.servers m ∧ (∀ s ∈ st.servers, s.is_transmitting = false) ∧
    st.servers.length = st.num_servers ∧ RealizedOrSmall st.servers m

lemma mem_wf_getElem (l : List Server) (s : Server) (h : WFServers l) (hs : s ∈ l) :
    l[s.id]? = some s := by
  obtain ⟨j, hj, hjs⟩ := List.getElem_of_mem hs
  have hget : l[j]? = some s := List.getElem?_eq_some_iff.mpr ⟨hj, hjs⟩
  have hid := (h j s hget).1
  rw [hid]
  exact hget

lemma chunks_setServerChunk_ne (l : List Server) (sid c j : Nat) (hj : j ≠ sid) :
    ((setServerChunk l sid c)[j]?).map Server.chunks = (l[j]?).map Server.chunks := by
  unfold setServerChunk
  rcases hs : l[sid]? with _ | s
  · rfl
  · rw [List.getElem?_set_ne (by omega)]

lemma setServerChunk_at (l : List Server) (sid c : Nat) (s : Server) (hs : l[sid]? = some s) :
    (setServerChunk l sid c)[sid]? = some { s with chunks := s.chunks.set c true } := by
  unfold setServerChunk
  rw [hs]
  exact List.getElem?_set_self (List.getElem?_eq_some_iff.mp hs).1

lemma chunks_markTransmitting (l : List Server) (sid tid j : Nat) :
    ((markTransmitting l sid tid)[j]?).map Server.chunks = (l[j]?).map Server.chunks := by
  unfold markTransmitting
  rcases hs : l[sid]? with _ | s
  · rfl
  · rcases eq_or_ne j sid with rfl | hne
    · rw [List.getElem?_set_self (List.getElem?_eq_some_iff.mp hs).1, hs]
      rfl
    · rw [List.getElem?_set_ne (by omega)]

lemma reset_chunks_at (l : List Server) (j : Nat) :
    ((reset_transmission l)[j]?).map Server.chunks = (l[j]?).map Server.chunks := by
  unfold reset_transmission
  rw [List.getElem?_map]
  rcases l[j]? with _ | s
  · rfl
  · rfl

lemma serverZeroFull_of_pfx (l : List Server) (s : Server) (h0 : l[0]? = some s)
    (hc : s.chunks = pfx NUM_CHUNKS) : serverZeroFull l = true := by
  unfold serverZeroFull
  rw [h0]
  show (s.chunks.all fun chunk => chunk) = true
  rw [hc]
  decide

lemma smart_source_step_anatomy (l l' : List Server) (i : Nat) (tr : Transfer)
    (hstep : smart_source_step l i = (l', some tr)) :
    ∃ src bt c, l[i]? = some src ∧ best_target l src = some bt ∧
      chunk_to_send src bt = some c ∧ tr = ⟨src.id, bt.id, c⟩ ∧
      l' = markTransmitting (setServerChunk l bt.id c) src.id bt.id := by
  rcases h1 : l[i]? with _ | src
  · simp only [smart_source_step, h1, Prod.mk.injEq] at hstep
    exact absurd hstep.2 (by simp)
  rcases h2 : best_target l src with _ | bt
  · simp only [smart_source_step, h1, h2, Prod.mk.injEq] at hstep
    exact absurd hstep.2 (by simp)
  rcases h3 : chunk_to_send src bt with _ | c
  · simp only [smart_source_step, h1, h2, h3, Prod.mk.injEq] at hstep
    exact absurd hstep.2 (by simp)
  simp only [smart_source_step, h1, h2, h3, Prod.mk.injEq, Option.some.injEq] at hstep
  exact ⟨src, bt, c, rfl, h2, h3, hstep.2.symm, hstep.1.symm⟩

lemma smart_source_step_none (l l' : List Server) (i : Nat)
    (hstep : smart_source_step l i = (l', none)) : l' = l := by
  rcases h1 : l[i]? with _ | src
  · simp only [smart_source_step, h1, Prod.mk.injEq] at hstep
    exact hstep.1.symm
  rcases h2 : best_target l src with _ | bt
  · simp only [smart_source_step, h1, h2, Prod.mk.injEq] at hstep
    exact hstep.1.symm
  rcases h3 : chunk_to_send src bt with _ | c
  · simp only [smart_source_step, h1, h2, h3, Prod.mk.injEq] at hstep
    exact hstep.1.symm
  · simp only [smart_source_step, h1, h2, h3, Prod.mk.injEq] at hstep
    exact absurd hstep.2 (by simp)

lemma smart_step_prefix (l l' : List Server) (m i ka : Nat) (tr : Transfer)
    (hinv : PrefixInv l m)
    (hstep : smart_source_step l i = (l', some tr))
    (hka : ∀ src, l[i]? = some src → src.chunks = pfx ka)
    (hka16 : ka ≤ NUM_CHUNKS)
    (hkam : ka ≤ m + 1 ∨
      (∃ t, t ∈ l ∧ t.id ≠ i ∧ t.is_transmitting = false ∧ t.chunks = pfx m)) :
    m < NUM_CHUNKS ∧ 1 ≤ tr.target ∧
    (∃ s, l[tr.target]? = some s ∧ s.chunks = pfx m) ∧
    (∃ s, l'[tr.target]? = some s ∧ s.chunks = pfx (m + 1)) ∧
    (∀ j, j ≠ tr.target → (l'[j]?).map Server.chunks = (l[j]?).map Server.chunks) ∧
    PrefixInv l' m := by
  obtain ⟨hwf, h0, hge1⟩ := hinv
  obtain ⟨src, bt, c, hsrc, hbt, hcts, htr, hl'⟩ := smart_source_step_anatomy l l' i tr hstep
  have hsrcc : src.chunks = pfx ka := hka src hsrc
  have hsrcid : src.id = i := (hwf i src hsrc).1
  obtain ⟨hbtmem, hneed, hbtid, hbttr⟩ := best_target_spec2 l src bt hbt
  have hbtget : l[bt.id]? = some bt := mem_wf_getElem l bt hwf hbtmem
  have hbtpos : 1 ≤ bt.id := by
    by_contra hc0
    have hb0 : bt.id = 0 := by omega
    rw [hb0] at hbtget
    have hbt16 : bt.chunks = pfx NUM_CHUNKS := h0 bt hbtget
    have := (has_needed_pfx src bt ka NUM_CHUNKS hsrcc hbt16 hka16).mp hneed
    omega
  obtain ⟨kb, hkb16, hbtc, hkbm⟩ := hge1 bt.id bt hbtpos hbtget
  have hkblt : kb < ka := (has_needed_pfx src bt ka kb hsrcc hbtc hka16).mp hneed
  have hkbeq : kb = m := by
    rcases hkbm with rfl | rfl
    · rfl
    · rcases hkam with hle | ⟨t, htmem, htid, httr, htc⟩
      · omega
      · have htneed : has_needed_chunks src t = true := by
          refine (has_needed_pfx src t ka m hsrcc htc hka16).mpr ?_
          omega
        have hle := best_target_count_le l src bt t hbt htmem
          (by rw [hsrcid]; exact htid) htneed httr
        rw [target_chunk_count_pfx bt (m + 1) hbtc hkb16,
          target_chunk_count_pfx t m htc (by omega)] at hle
        omega
  rw [hkbeq] at hbtc hkblt
  have hm16 : m < NUM_CHUNKS := by omega
  have hcm : c = m := by
    have h2 := chunk_to_send_pfx src bt ka m hsrcc hbtc hka16 hkblt
    rw [hcts] at h2
    injection h2
  subst c
  have htgt : tr.target = bt.id := by rw [htr]
  have hset : (setServerChunk l bt.id m)[bt.id]? =
      some { bt with chunks := bt.chunks.set m true } :=
    setServerChunk_at l bt.id m bt hbtget
  have hnewc : bt.chunks.set m true = pfx (m + 1) := by
    rw [hbtc]
    exact pfx_set m hm16
  have hframe : ∀ j, j ≠ tr.target →
      (l'[j]?).map Server.chunks = (l[j]?).map Server.chunks := by
    intro j hj
    rw [hl', chunks_markTransmitting, chunks_setServerChunk_ne]
    rw [htgt] at hj
    exact hj
  have hpost : ∃ s, l'[tr.target]? = some s ∧ s.chunks = pfx (m + 1) := by
    have hmap : (l'[tr.target]?).map Server.chunks = some (pfx (m + 1)) := by
      rw [hl', htgt, chunks_markTransmitting, hset]
      simp only [Option.map_some']
      rw [hnewc]
    rcases hs' : l'[tr.target]? with _ | s'
    · rw [hs'] at hmap
      exact absurd hmap (by simp)
    · rw [hs'] at hmap
      simp only [Option.map_some', Option.some.injEq] at hmap
      exact ⟨s', rfl, hmap⟩
  refine ⟨hm16, by omega, ⟨bt, by rw [htgt]; exact hbtget, hbtc⟩, hpost, hframe, ?_, ?_, ?_⟩
  · rw [hl']
    exact wf_markTransmitting _ _ _ (wf_setServerChunk _ _ _ hwf)
  · intro s hs
    have hfr := hframe 0 (by omega)
    rw [hs] at hfr
    rcases h0l : l[0]? with _ | s0
    · rw [h0l] at hfr
      exact absurd hfr (by simp)
    · rw [h0l] at hfr
      simp only [Option.map_some', Option.some.injEq] at hfr
      rw [hfr]
      exact h0 s0 h0l
  · intro j s hj1 hjs
    rcases eq_or_ne j tr.target with rfl | hne
    · obtain ⟨s', hs', hc'⟩ := hpost
      rw [hjs] at hs'
      injection hs' with hs'
      refine ⟨m + 1, by omega, ?_, Or.inr rfl⟩
      rw [hs']
      exact hc'
    · have hfr := hframe j hne
      rw [hjs] at hfr
      rcases hjl : l[j]? with _ | s0
      · rw [hjl] at hfr
        exact absurd hfr (by simp)
      · rw [hjl] at hfr
        simp only [Option.map_some', Option.some.injEq] at hfr
        obtain ⟨k, hk16, hkc, hkm⟩ := hge1 j s0 hj1 hjl
        exact ⟨k, hk16, by rw [hfr]; exact hkc, hkm⟩

lemma smart_pass_cons (l : List Server) (i0 : Nat) (rest : List Nat) :
    smart_pass l (i0 :: rest) =
      ((smart_pass (smart_source_step l i0).1 rest).1,
       (smart_source_step l i0).2.toList ++ (smart_pass (smart_source_step l i0).1 rest).2) := by
  rcases hstep : smart_source_step l i0 with ⟨l1, tr⟩
  rcases hpass : smart_pass l1 rest with ⟨l2, trs⟩
  simp [smart_pass, hstep, hpass]

lemma smart_pass_prefix (m : Nat) :
    ∀ (is : List Nat) (l : List Server), PrefixInv l m → (∀ i ∈ is, 1 ≤ i) →
      PrefixInv (smart_pass l is).1 m ∧
      ((smart_pass l is).2.map Transfer.target).Nodup ∧
      (∀ tr ∈ (smart_pass l is).2,
        ∃ s, l[tr.target]? = some s ∧ s.chunks = pfx m) := by
  intro is
  induction is with
  | nil =>
    intro l hinv _
    exact ⟨hinv, List.nodup_nil, by intro tr htr; exact absurd htr (List.not_mem_nil tr)⟩
  | cons i rest ih =>
    intro l hinv hpos
    have hi1 : 1 ≤ i := hpos i (List.mem_cons_self i rest)
    have hrest : ∀ i' ∈ rest, 1 ≤ i' := fun i' h => hpos i' (List.mem_cons_of_mem i h)
    rw [smart_pass_cons]
    rcases hstep : smart_source_step l i with ⟨l1, _ | tr⟩
    · have hl1 : l1 = l := smart_source_step_none l l1 i hstep
      subst hl1
      obtain ⟨h1, h2, h3⟩ := ih l1 hinv hrest
      exact ⟨h1, by simpa using h2, by simpa using h3⟩
    · have hka : ∃ ka, ka ≤ NUM_CHUNKS ∧ (∀ src, l[i]? = some src → src.chunks = pfx ka) ∧
          ka ≤ m + 1 := by
        obtain ⟨src, _, _, hsrc, _⟩ := smart_source_step_anatomy l l1 i tr hstep
        obtain ⟨ka, hka16, hkac, hkam⟩ := hinv.2.2 i src hi1 hsrc
        refine ⟨ka, hka16, ?_, by omega⟩
        intro src' hsrc'
        rw [hsrc] at hsrc'
        injection hsrc' with hsrc'
        rw [← hsrc']
        exact hkac
      obtain ⟨ka, hka16, hkac, hkam⟩ := hka
      obtain ⟨hm16, htr1, hpre, hpost, hframe, hinv1⟩ :=
        smart_step_prefix l l1 m i ka tr hinv hstep hkac hka16 (Or.inl hkam)
      obtain ⟨h1, h2, h3⟩ := ih l1 hinv1 hrest
      have hnotin : ∀ tr' ∈ (smart_pass l1 rest).2, tr'.target ≠ tr.target := by
        intro tr' htr' hcontra
        obtain ⟨s, hs, hsc⟩ := h3 tr' htr'
        obtain ⟨s', hs', hsc'⟩ := hpost
        rw [hcontra, hs'] at hs
        injection hs with hs
        rw [hs] at hsc'
        rw [hsc'] at hsc
        exact pfx_inj_ne m (m + 1) hm16 (by omega) hsc.symm
      refine ⟨h1, ?_, ?_⟩
      · simp only [Option.toList_some, List.cons_append, List.nil_append, List.map_cons]
        refine List.Nodup.cons ?_ h2
        intro hmem
        rw [List.mem_map] at hmem
        obtain ⟨tr', htr', htr'eq⟩ := hmem
        exact hnotin tr' htr' htr'eq
      · intro tr' htr'
        simp only [Option.toList_some, List.cons_append, List.nil_append,
          List.mem_cons] at htr'
        rcases htr' with rfl | htr'
        · exact hpre
        · obtain ⟨s, hs, hsc⟩ := h3 tr' htr'
          have hfr := hframe tr'.target (hnotin tr' htr')
          rw [hs] at hfr
          rcases hjl : l[tr'.target]? with _ | s0
          · rw [hjl] at hfr
            exact absurd hfr (by simp)
          · rw [hjl] at hfr
            simp only [Option.map_some', Option.some.injEq] at hfr
            exact ⟨s0, rfl, by rw [← hfr]; exact hsc⟩

lemma PrefixInv_reset (l : List Server) (m : Nat) (h : PrefixInv l m) :
    PrefixInv (reset_transmission l) m := by
  obtain ⟨hwf, h0, hge1⟩ := h
  refine ⟨wf_reset l hwf, ?_, ?_⟩
  · intro s hs
    have hfr := reset_chunks_at l 0
    rw [hs] at hfr
    rcases h0l : l[0]? with _ | s0
    · rw [h0l] at hfr
      exact absurd hfr (by simp)
    · rw [h0l] at hfr
      simp only [Option.map_some', Option.some.injEq] at hfr
      rw [hfr]
      exact h0 s0 h0l
  · intro j s hj1 hjs
    have hfr := reset_chunks_at l j
    rw [hjs] at hfr
    rcases hjl : l[j]? with _ | s0
    · rw [hjl] at hfr
      exact absurd hfr (by simp)
    · rw [hjl] at hfr
      simp only [Option.map_some', Option.some.injEq] at hfr
      obtain ⟨k, hk16, hkc, hkm⟩ := hge1 j s0 hj1 hjl
      exact ⟨k, hk16, by rw [hfr]; exact hkc, hkm⟩

lemma smart_tick_main (st : SimState) (m : Nat) (hinv : PrefixInv st.servers m)
    (hflags : ∀ s ∈ st.servers, s.is_transmitting = false)
    (hlen : st.servers.length = st.num_servers)
    (hreal : RealizedOrSmall st.servers m) :
    PrefixInv (smart_transfer st).servers m ∧
    ((smart_transfer_trace st).map Transfer.target).Nodup := by
  by_cases hnil : st.servers = []
  · have htr : smart_transfer_trace st = [] := by
      rw [smart_transfer_trace, hnil]
      rfl
    have hsv : (smart_transfer st).servers = st.servers := by
      show (smart_pass st.servers (available_servers st.servers)).1 = st.servers
      rw [hnil]
      rfl
    rw [htr, hsv]
    exact ⟨hinv, by simp⟩
  · rcases h0 : st.servers[0]? with _ | s0
    · rw [List.getElem?_eq_none_iff] at h0
      have := List.length_pos.mpr hnil
      omega
    have hfull : serverZeroFull st.servers = true :=
      serverZeroFull_of_pfx st.servers s0 h0 (hinv.2.1 s0 h0)
    obtain ⟨rest, havail, hrest1⟩ :=
      available_head st ⟨hlen, hinv.1, hflags, hfull⟩ hnil
    have htrace : smart_transfer_trace st =
        (smart_source_step st.servers 0).2.toList ++
          (smart_pass (smart_source_step st.servers 0).1 rest).2 := by
      rw [smart_transfer_trace, havail, smart_pass_cons]
    have hserv : (smart_transfer st).servers =
        (smart_pass (smart_source_step st.servers 0).1 rest).1 := by
      show (smart_pass st.servers (available_servers st.servers)).1 = _
      rw [havail, smart_pass_cons]
    rcases hstep : smart_source_step st.servers 0 with ⟨l1, _ | tr⟩
    · have hl1 : l1 = st.servers := smart_source_step_none _ _ _ hstep
      subst hl1
      obtain ⟨h1, h2, _⟩ := smart_pass_prefix m rest st.servers hinv hrest1
      rw [htrace, hserv, hstep]
      exact ⟨h1, by simpa using h2⟩
    · have hkam : ∃ t, t ∈ st.servers ∧ t.id ≠ 0 ∧ t.is_transmitting = false ∧
          t.chunks = pfx m := by
        rcases hreal with ⟨jt, t, hjt1, hjt, htc⟩ | hsmall
        · refine ⟨t, List.getElem?_mem hjt, ?_, hflags t (List.getElem?_mem hjt), htc⟩
          have := (hinv.1 jt t hjt).1
          omega
        · obtain ⟨src, bt, c, hsrc, hbt, _, _, _⟩ :=
            smart_source_step_anatomy _ _ _ _ hstep
          obtain ⟨hbtmem, _, hbtid, _⟩ := best_target_spec2 _ _ _ hbt
          have hsrcid : src.id = 0 := (hinv.1 0 src hsrc).1
          have hbtget := mem_wf_getElem st.servers bt hinv.1 hbtmem
          have := (List.getElem?_eq_some_iff.mp hbtget).1
          have hbt0 : bt.id = 0 := by omega
          rw [hsrcid, hbt0] at hbtid
          exact absurd rfl hbtid
      obtain ⟨hm16, htr1, hpre, hpost, hframe, hinv1⟩ :=
        smart_step_prefix st.servers l1 m 0 NUM_CHUNKS tr hinv hstep
          hinv.2.1 (le_refl _) (Or.inr hkam)
      obtain ⟨h1, h2, h3⟩ := smart_pass_prefix m rest l1 hinv1 hrest1
      have hnotin : ∀ tr' ∈ (smart_pass l1 rest).2, tr'.target ≠ tr.target := by
        intro tr' htr' hcontra
        obtain ⟨s, hs, hsc⟩ := h3 tr' htr'
        obtain ⟨s', hs', hsc'⟩ := hpost
        rw [hcontra, hs'] at hs
        injection hs with hs
        rw [hs] at hsc'
        rw [hsc'] at hsc
        exact pfx_inj_ne m (m + 1) hm16 (by omega) hsc.symm
      rw [htrace, hserv, hstep]
      refine ⟨h1, ?_⟩
      simp only [Option.toList_some, List.cons_append, List.nil_append, List.map_cons]
      refine List.Nodup.cons ?_ h2
      intro hmem
      rw [List.mem_map] at hmem
      obtain ⟨tr', htr', htr'eq⟩ := hmem
      exact hnotin tr' htr' htr'eq

lemma TickInv_step (algorithm : String) (halg : algorithm ≠ "naive") (st st' : SimState)
    (hti : TickInv st) (hstep : sim_step algorithm st = .ok st') : TickInv st' := by
  rw [sim_step_smart_eq algorithm halg st] at hstep
  injection hstep with hstep
  subst hstep
  obtain ⟨m, hinv, hflags, hlen, hreal⟩ := hti
  have hP : PrefixInv (smart_transfer st).servers m :=
    (smart_tick_main st m hinv hflags hlen hreal).1
  have hPR : PrefixInv (reset_transmission (smart_transfer st).servers) m :=
    PrefixInv_reset _ m hP
  have hlenR : (reset_transmission (smart_transfer st).servers).length = st.num_servers := by
    rw [reset_transmission, List.length_map]
    have h1 : (smart_transfer st).servers.length = st.servers.length := length_smart_pass _ _
    rw [h1, hlen]
  by_cases hsurv : ∃ (j : Nat) (s : Server), 1 ≤ j ∧
      (reset_transmission (smart_transfer st).servers)[j]? = some s ∧ s.chunks = pfx m
  · exact ⟨m, hPR, flags_reset _, hlenR, Or.inl hsurv⟩
  · refine ⟨m + 1, ⟨hPR.1, hPR.2.1, ?_⟩, flags_reset _, hlenR, ?_⟩
    · intro j s hj1 hjs
      obtain ⟨k, hk16, hkc, hkm⟩ := hPR.2.2 j s hj1 hjs
      rcases hkm with rfl | rfl
      · exact absurd ⟨j, s, hj1, hjs, hkc⟩ hsurv
      · exact ⟨m + 1, hk16, hkc, Or.inl rfl⟩
    · rcases Nat.lt_or_ge (reset_transmission (smart_transfer st).servers).length 2 with
        hsm | hbig
      · refine Or.inr ?_
        show (reset_transmission (smart_transfer st).servers).length ≤ 1
        omega
      · rcases h1 : (reset_transmission (smart_transfer st).servers)[1]? with _ | s1
        · rw [List.getElem?_eq_none_iff] at h1
          omega
        · obtain ⟨k, hk16, hkc, hkm⟩ := hPR.2.2 1 s1 (le_refl 1) h1
          rcases hkm with rfl | rfl
          · exact absurd ⟨1, s1, le_refl 1, h1, hkc⟩ hsurv
          · exact Or.inl ⟨1, s1, le_refl 1, h1, hkc⟩

lemma initState_getElem (n j : Nat) (s : Server)
    (h : (initState n).servers[j]? = some s) :
    j < n ∧ s.chunks = List.replicate NUM_CHUNKS (decide (j = 0)) := by
  unfold initState at h
  simp only [List.getElem?_map] at h
  rcases Nat.lt_or_ge j n with hj | hj
  · rw [List.getElem?_range hj] at h
    simp only [Option.map_some', Option.some.injEq] at h
    rw [← h]
    exact ⟨hj, rfl⟩
  · rw [List.getElem?_eq_none (by simpa using hj)] at h
    exact absurd h (by simp)

lemma TickInv_init (n : Nat) : TickInv (initState n) := by
  refine ⟨0, ⟨initState_wf n, ?_, ?_⟩, initState_flags n, initState_length n, ?_⟩
  · intro s hs
    obtain ⟨_, hc⟩ := initState_getElem n 0 s hs
    rw [hc]
    decide
  · intro j s hj1 hjs
    obtain ⟨hjn, hc⟩ := initState_getElem n j s hjs
    refine ⟨0, by omega, ?_, Or.inl rfl⟩
    rw [hc, decide_eq_false (by omega)]
    exact replicate_false_pfx
  · rcases Nat.lt_or_ge n 2 with hn | hn
    · exact Or.inr (by rw [initState_length]; omega)
    · have h1 : (initState n).servers[1]? = some
          { id := 1, chunks := List.replicate NUM_CHUNKS (decide ((1 : Nat) = 0)),
            is_transmitting := false, transmitting_to := none } := by
        unfold initState
        rw [List.getElem?_map, List.getElem?_range (by omega), Option.map_some']
      refine Or.inl ⟨1, _, le_refl 1, h1, ?_⟩
      decide

lemma TickInv_reachable (algorithm : String) (halg : algorithm ≠ "naive") (n : Nat)
    (st : SimState) (h : ReachableSim algorithm n st) : TickInv st := by
  induction h with
  | refl => exact TickInv_init n
  | tail hab hbc ih => exact TickInv_step algorithm halg _ _ ih hbc

lemma naive_trace_targets_nodup (st : SimState) :
    ((naive_transfer_trace st).map Transfer.target).Nodup := by
  apply length_le_one_nodup
  rw [List.length_map]
  exact naive_trace_len st

/-- C3: within a single tick, every server is the target of at most one
transfer, under either strategy.  Formally: at any state reachable from a
fresh simulation by iterating the loop body, the targets of the transfers
recorded during the next tick are pairwise distinct — the naive strategy
records at most one transfer per tick, and the smart strategy's
least-chunks selection never picks the same target for two sources within
one tick on reachable states. -/
theorem C3_per_tick_single_target (algorithm : String) (num_servers : Nat)
    (st : SimState) (h : ReachableSim algorithm num_servers st) :
    ((transfer_trace algorithm st).map Transfer.target).Nodup := by
  by_cases halg : algorithm = "naive"
  · rw [transfer_trace, if_pos halg]
    exact naive_trace_targets_nodup st
  · rw [transfer_trace, if_neg halg]
    obtain ⟨m, hinv, hflags, hlen, hreal⟩ :=
      TickInv_reachable algorithm halg num_servers st h
    exact (smart_tick_main st m hinv hflags hlen hreal).2

theorem C3_witness :
    ((transfer_trace "smart" (initState 3)).map Transfer.target).Nodup :=
  C3_per_tick_single_target "smart" 3 (initState 3) Relation.ReflTransGen.refl
